import Mathlib

/-!
Verification of the duplicate-detection core of the nepalijobscraper
repository (analytics/scripts/duplicate_detector.py), as a shallow
embedding in Lean 4.

Modelling conventions:
* Python strings are `List Char` (`Str`); the regex classes `\w` and `\s`
  are modelled over their ASCII parts (`Char.isAlphanum`/underscore and
  space/tab/newline/carriage return), which is what the scraped data and
  all claims exercise.
* Python floats are `ℚ` (the scores involved are exact decimal fractions).
* `difflib.SequenceMatcher.ratio` is embedded by its documented algorithm
  (recursive longest-matching-block decomposition; the autojunk heuristic
  never fires below 200 characters and is not modelled).
* `hashlib.md5` is a deterministic digest of the joined key string; it is
  modelled as the joined key string itself (the spec allows any
  deterministic digest and no claim depends on the hash value).
* TF-IDF/cosine similarity (`sklearn`) is external to the repository; the
  semantic strategy takes the pairwise cosine-similarity function as a
  parameter (`none` models the vectorizer raising, which the code catches).
* `pandas` dataframe behaviour is embedded where it matters: a column
  exists iff some record of the batch carries the key, `fillna('')`
  defaults missing cells, and a missing column subscript is a `KeyError`,
  modelled with `Except`.
-/

namespace DupDetect

abbrev Str := List Char

/-- ASCII model of the regex class `\s` (and of `str.split`/`str.strip`
whitespace). -/
def isWsChar (c : Char) : Bool := c = ' ' || c = '\t' || c = '\n' || c = '\r'

/-- ASCII model of the regex class `\w`. -/
def isWordChar (c : Char) : Bool := c.isAlphanum || c = '_'

/-- `str.lower()`. -/
def lowerStr (s : Str) : Str := s.map Char.toLower

/-- `re.sub(r'\s+', ' ', text)`, scanned with a flag recording whether the
previous character was whitespace: the first character of a whitespace run
becomes one space, the rest of the run is dropped. -/
def collapseAux (prevWs : Bool) : Str → Str
  | [] => []
  | c :: cs =>
    if isWsChar c then
      if prevWs then collapseAux true cs else ' ' :: collapseAux true cs
    else c :: collapseAux false cs

/-- `re.sub(r'\s+', ' ', text)`: every maximal whitespace run becomes one
space. -/
def collapseWs (s : Str) : Str := collapseAux false s

/-- `str.strip()`. -/
def stripWs (s : Str) : Str :=
  ((s.dropWhile isWsChar).reverse.dropWhile isWsChar).reverse

/-- `DuplicateDetector._clean_text`: lowercase, collapse whitespace and
strip, then replace every character outside `[\w\s-]` by a space. -/
def cleanText (s : Str) : Str :=
  if s.isEmpty then []
  else
    (stripWs (collapseWs (lowerStr s))).map
      (fun c => if isWordChar c || isWsChar c || c = '-' then c else ' ')

/-- Maximal runs of characters satisfying `P`; with `P = !isWsChar` this is
Python's `str.split()`, with `P = isWordChar` it decomposes a string into
its regex words. -/
def runsP (P : Char → Bool) : Str → List Str
  | [] => []
  | c :: cs =>
    if P c then (c :: cs.takeWhile P) :: runsP P (cs.dropWhile P)
    else runsP P cs
termination_by s => s.length
decreasing_by
  · simp only [List.length_cons]
    exact Nat.lt_succ_of_le ((List.dropWhile_sublist P).length_le)
  · simp

/-- `str.split()` (split on whitespace, dropping empty pieces). -/
def splitWs (s : Str) : List Str := runsP (fun c => !isWsChar c) s

/-- `' '.join(ws)`. -/
def joinSpace : List Str → Str
  | [] => []
  | [w] => w
  | w :: ws => w ++ ' ' :: joinSpace ws

/-- The noise-word stoplist of `_normalize_text`. -/
def noiseWords : List Str :=
  (["job", "position", "role", "vacancy", "opportunity", "career"]).map
    String.toList

/-- `DuplicateDetector._normalize_text`: drop noise words, rejoin with
single spaces. -/
def normalizeText (s : Str) : Str :=
  if s.isEmpty then []
  else joinSpace ((splitWs s).filter (fun w => !noiseWords.contains w))

/-- Right-hand word boundary: `\b` after a pattern that ends in a `\w`
character holds iff the next character is absent or not a `\w` character. -/
def boundR : Str → Bool
  | [] => true
  | d :: _ => !isWordChar d

/-- One `re.sub(rf'\b{p}\b', '', s)` pass for a pattern `p` that starts and
ends with `\w` characters (every legal-entity suffix does): scan left to
right, delete each match, resume after it.  `prevW` records whether the
character preceding the scan position is a `\w` character, which decides
the left boundary. -/
def rwAux (p : Str) (prevW : Bool) : Str → Str
  | [] => []
  | c :: cs =>
    if !prevW && p.isPrefixOf (c :: cs) && boundR (List.drop p.length (c :: cs))
        && !p.isEmpty then
      rwAux p (isWordChar (p.getLastD ' ')) (List.drop p.length (c :: cs))
    else c :: rwAux p (isWordChar c) cs
termination_by s => s.length
decreasing_by
  · rename_i hcond
    simp only [Bool.and_eq_true, Bool.not_eq_true'] at hcond
    have hp : p.length ≠ 0 := by
      simpa [List.isEmpty_iff, List.length_eq_zero] using hcond.2
    simp only [List.length_drop, List.length_cons]
    omega
  · simp

/-- `re.sub(rf'\b{p}\b', '', s)` on a whole string (no preceding
character). -/
def removeWord (p : Str) (s : Str) : Str := rwAux p false s

/-- The legal-entity suffix list of `_normalize_company_name`, in its
iteration order. -/
def suffixes : List Str :=
  (["pvt ltd", "private limited", "ltd", "inc", "corp", "corporation",
    "company", "co", "limited", "llc", "plc"]).map String.toList

/-- `DuplicateDetector._normalize_company_name`: lowercase, delete each
suffix as a whole word (in list order), strip. -/
def normalizeCompanyName (s : Str) : Str :=
  if s.isEmpty then []
  else stripWs (suffixes.foldl (fun acc suf => removeWord suf acc) (lowerStr s))

/-! ## `difflib.SequenceMatcher` (no junk, no autojunk)

`find_longest_match` returns the longest matching block, earliest in `a`,
then earliest in `b`; `get_matching_blocks` recurses on both sides of it;
`ratio` is `2*M/T`.  This declarative embedding was checked to agree with
CPython's `difflib` on every pair of strings of length at most five over a
three-letter alphabet. -/

/-- Length of the longest common prefix of two strings. -/
def commonPrefixLen : Str → Str → Nat
  | a :: as, b :: bs => if a = b then commonPrefixLen as bs + 1 else 0
  | _, _ => 0

/-- Length of the longest matching block starting at position `i` of `a`
and `j` of `b`. -/
def extLen (a b : Str) (i j : Nat) : Nat :=
  commonPrefixLen (a.drop i) (b.drop j)

/-- All block lengths `extLen a b i j` for `i, j` in range. -/
def allExts (a b : Str) : List Nat :=
  (List.range a.length).flatMap
    (fun i => (List.range b.length).map (fun j => extLen a b i j))

/-- The size of the longest matching block. -/
def bestSize (a b : Str) : Nat := (allExts a b).foldr max 0

/-- `find_longest_match` over the whole strings: `(i, j, k)` with `k`
maximal, then `i` minimal, then `j` minimal. -/
def flm (a b : Str) : Nat × Nat × Nat :=
  let k := bestSize a b
  if k = 0 then (0, 0, 0)
  else
    let i := ((List.range a.length).find?
      (fun i => (List.range b.length).any (fun j => k ≤ extLen a b i j))).getD 0
    let j := ((List.range b.length).find? (fun j => k ≤ extLen a b i j)).getD 0
    (i, j, k)

/-- Total number of matched characters over all matching blocks
(`get_matching_blocks`): recurse left and right of the longest match.
Structural recursion on a fuel argument so that the definition reduces in
the kernel; every recursive call strictly decreases `a.length + b.length`
(by `flm_bounds`, since the matched block is nonempty), so the initial
fuel `a.length + b.length` in `totalMatched` is never exhausted. -/
def totalMatchedF : Nat → Str → Str → Nat
  | 0, _, _ => 0
  | fuel + 1, a, b =>
    if (flm a b).2.2 = 0 then 0
    else
      totalMatchedF fuel (a.take (flm a b).1) (b.take (flm a b).2.1) +
      (flm a b).2.2 +
      totalMatchedF fuel (a.drop ((flm a b).1 + (flm a b).2.2))
        (b.drop ((flm a b).2.1 + (flm a b).2.2))

/-- Total matched characters of `get_matching_blocks`. -/
def totalMatched (a b : Str) : Nat := totalMatchedF (a.length + b.length) a b

/-- `SequenceMatcher.ratio()`: `2*M/T`, and 1 when both strings are
empty. -/
def ratio (a b : Str) : ℚ :=
  if a.length + b.length = 0 then 1
  else 2 * (totalMatched a b : ℚ) / ((a.length : ℚ) + (b.length : ℚ))

/-! ## Data model -/

/-- A raw scraped job record (a string-keyed dict; a `none` field is a key
absent from the record). -/
structure RawRecord where
  id : Option Str
  title : Option Str
  company : Option Str
  location : Option Str
  description : Option Str
  salary : Option Str
  source : Option Str
deriving DecidableEq

/-- A preprocessed dataframe row: the raw columns that the detector still
reads plus the derived columns of `_preprocess_data`.  A `none` derived
field models a column that does not exist in the batch's dataframe. -/
structure ProcRecord where
  id : Str
  source : Option Str
  title_clean : Option Str
  title_normalized : Option Str
  company_clean : Option Str
  company_normalized : Option Str
  location_clean : Option Str
  description_clean : Option Str
  salary : Option Str
  fingerprint : Str
deriving DecidableEq

/-- `DuplicateMatch` dataclass. -/
structure DuplicateMatch where
  job1_id : Str
  job2_id : Str
  similarity_score : ℚ
  match_type : Str
  reasons : List Str
  confidence : ℚ
deriving DecidableEq

/-- `_default_config`, flattened into a structure. -/
structure Config where
  exactMatch : ℚ
  highSimilarity : ℚ
  mediumSimilarity : ℚ
  lowSimilarity : ℚ
  weightTitle : ℚ
  weightCompany : ℚ
  weightLocation : ℚ
  weightDescription : ℚ
  weightSalary : ℚ
  fuzzyThreshold : ℚ
  minConfidence : ℚ
  enableAdvancedMatching : Bool

/-- The default configuration values of `_default_config`. -/
def defaultConfig : Config :=
  { exactMatch := 1, highSimilarity := 9/10, mediumSimilarity := 7/10,
    lowSimilarity := 5/10, weightTitle := 4/10, weightCompany := 3/10,
    weightLocation := 15/100, weightDescription := 1/10,
    weightSalary := 5/100, fuzzyThreshold := 8/10, minConfidence := 6/10,
    enableAdvancedMatching := true }

/-- `_generate_fingerprint`: the md5 digest of the joined key fields,
modelled as the joined key string itself (a deterministic digest; no claim
depends on the hash value, only on equality of digests). -/
def fingerprintOf (tn cn lc : Str) : Str := tn ++ ('|' :: cn) ++ ('|' :: lc)

/-- Decimal digits of an index, for ids synthesized from the dataframe
index. -/
def natToStr (n : Nat) : Str := (Nat.repr n).toList

/-- Resolution of the `id` column: synthesized from the index when no
record carries an id; otherwise the record's id (a record missing the key
in a batch that has the column holds `NaN`, modelled as the placeholder
string `nan`). -/
def assignIds (records : List RawRecord) : List (Str × RawRecord) :=
  if records.all (fun r => r.id.isNone) then
    records.enum.map (fun p => (natToStr p.1, p.2))
  else
    records.map (fun r => (r.id.getD (("nan").toList), r))

/-- Derivation of one row of `_preprocess_data`, given which text columns
exist in the batch.  `company_normalized` is first set to
`_normalize_text` of the clean company and then overwritten with
`_normalize_company_name` of it; only the final value is kept. -/
def procRecord (hasT hasC hasL hasD : Bool) (idr : Str × RawRecord) :
    ProcRecord :=
  let r := idr.2
  let tc := if hasT then some (cleanText (r.title.getD [])) else none
  let cc := if hasC then some (cleanText (r.company.getD [])) else none
  let lc := if hasL then some (cleanText (r.location.getD [])) else none
  let dc := if hasD then some (cleanText (r.description.getD [])) else none
  let tn := tc.map normalizeText
  let cn := cc.map normalizeCompanyName
  { id := idr.1, source := r.source, title_clean := tc, title_normalized := tn,
    company_clean := cc, company_normalized := cn, location_clean := lc,
    description_clean := dc, salary := r.salary,
    fingerprint := fingerprintOf (tn.getD []) (cn.getD []) (lc.getD []) }

/-- `_preprocess_data`.  A text column exists iff some record of the batch
carries the key (`pd.DataFrame` of a list of dicts); `fillna('')` turns
missing cells into empty strings.  The unconditional accesses
`df['title_clean']` (for `title_words`) and `df['company_clean']` (for
`company_normalized`) raise `KeyError` when the column does not exist —
in particular on an empty record list, which produces a dataframe with no
columns at all. -/
def preprocessData (records : List RawRecord) :
    Except String (List ProcRecord) :=
  let hasT := records.any (fun r => r.title.isSome)
  let hasC := records.any (fun r => r.company.isSome)
  let hasL := records.any (fun r => r.location.isSome)
  let hasD := records.any (fun r => r.description.isSome)
  if !hasT then Except.error "KeyError: title_clean"
  else if !hasC then Except.error "KeyError: company_clean"
  else Except.ok ((assignIds records).map (procRecord hasT hasC hasL hasD))

/-! ## Pairwise similarity scorers -/

/-- The per-field similarity when both rows carry the column. -/
def simOf (x y : Option Str) : Option ℚ :=
  match x, y with
  | some a, some b => some (ratio a b)
  | _, _ => none

/-- One accumulation step of `_calculate_fuzzy_similarity`: add
`w * similarity` to the total and `w` to the total weight when the field
is present on both rows. -/
def accumulate (acc : ℚ × ℚ) (w : ℚ) (s : Option ℚ) : ℚ × ℚ :=
  match s with
  | some v => (acc.1 + w * v, acc.2 + w)
  | none => acc

/-- `_calculate_fuzzy_similarity`: weighted average of the title, company,
location and description similarities over the fields present on both
rows; 0 when no field is present.  (The configured salary weight is never
read.) -/
def calcFuzzySimilarity (cfg : Config) (j1 j2 : ProcRecord) : ℚ :=
  let acc := accumulate (accumulate (accumulate (accumulate (0, 0)
    cfg.weightTitle (simOf j1.title_clean j2.title_clean))
    cfg.weightCompany (simOf j1.company_normalized j2.company_normalized))
    cfg.weightLocation (simOf j1.location_clean j2.location_clean))
    cfg.weightDescription (simOf j1.description_clean j2.description_clean)
  if 0 < acc.2 then acc.1 / acc.2 else 0

/-- `_calculate_cross_source_similarity`: title (0.6) and company (0.4)
only, with the same present-field renormalization. -/
def calcCrossSourceSimilarity (j1 j2 : ProcRecord) : ℚ :=
  let acc := accumulate (accumulate (0, 0)
    (6/10) (simOf j1.title_clean j2.title_clean))
    (4/10) (simOf j1.company_normalized j2.company_normalized)
  if 0 < acc.2 then acc.1 / acc.2 else 0

/-- `_get_similarity_reasons`, title bucket. -/
def reasonsTitle (j1 j2 : ProcRecord) : List Str :=
  match simOf j1.title_clean j2.title_clean with
  | some s =>
    if 9/10 < s then [("very_similar_titles").toList]
    else if 7/10 < s then [("similar_titles").toList]
    else []
  | none => []

/-- `_get_similarity_reasons`, company bucket. -/
def reasonsCompany (j1 j2 : ProcRecord) : List Str :=
  match simOf j1.company_normalized j2.company_normalized with
  | some s =>
    if 9/10 < s then [("same_company").toList]
    else if 7/10 < s then [("similar_company").toList]
    else []
  | none => []

/-- `_get_similarity_reasons`, location bucket. -/
def reasonsLocation (j1 j2 : ProcRecord) : List Str :=
  match simOf j1.location_clean j2.location_clean with
  | some s => if 9/10 < s then [("same_location").toList] else []
  | none => []

/-- `_get_similarity_reasons`. -/
def getSimilarityReasons (j1 j2 : ProcRecord) : List Str :=
  reasonsTitle j1 j2 ++ reasonsCompany j1 j2 ++ reasonsLocation j1 j2

/-! ## The four strategies -/

/-- All ordered pairs `(l[i], l[j])` with `i < j`, in the order of the
nested `for i / for j in range(i+1, n)` loops. -/
def allPairs {α : Type} : List α → List (α × α)
  | [] => []
  | x :: xs => xs.map (fun y => (x, y)) ++ allPairs xs

/-- Lexicographic comparison of strings by code point (Python `str`
ordering). -/
def strLe : Str → Str → Bool
  | [], _ => true
  | _ :: _, [] => false
  | a :: as, b :: bs => if a = b then strLe as bs else decide (a < b)

/-- Insertion step of a lexicographic string sort. -/
def insertStr (x : Str) : List Str → List Str
  | [] => [x]
  | y :: ys => if strLe x y then x :: y :: ys else y :: insertStr x ys

/-- Sorted list of strings (the order `pandas.groupby` presents group
keys in). -/
def sortStrs (l : List Str) : List Str := l.foldr insertStr []

/-- First-seen deduplication (`pandas.unique` order; also the size of a
Python `set`). -/
def uniqueFirst (l : List Str) : List Str :=
  l.foldl (fun acc x => if acc.contains x then acc else acc ++ [x]) []

/-- `_find_exact_duplicates`: group rows by fingerprint and emit every
2-combination of each group of two or more. -/
def findExactDuplicates (df : List ProcRecord) : List DuplicateMatch :=
  (sortStrs (uniqueFirst (df.map (fun r => r.fingerprint)))).flatMap
    (fun fp =>
      let ids := (df.filter (fun r => r.fingerprint == fp)).map (fun r => r.id)
      if 1 < ids.length then
        (allPairs ids).map (fun p =>
          { job1_id := p.1, job2_id := p.2, similarity_score := 1,
            match_type := ("exact").toList,
            reasons := [("identical_fingerprint").toList],
            confidence := 1 })
      else [])

/-- `_find_fuzzy_duplicates`: all-pairs weighted similarity, emitting at
or above the fuzzy threshold with confidence capped at 0.95. -/
def findFuzzyDuplicates (cfg : Config) (df : List ProcRecord) :
    List DuplicateMatch :=
  (allPairs df).filterMap (fun p =>
    let s := calcFuzzySimilarity cfg p.1 p.2
    if cfg.fuzzyThreshold ≤ s then
      some { job1_id := p.1.id, job2_id := p.2.id, similarity_score := s,
             match_type := ("fuzzy").toList,
             reasons := getSimilarityReasons p.1 p.2,
             confidence := min s (95/100) }
    else none)

/-- `_find_semantic_duplicates`.  The TF-IDF/cosine computation is
external (`sklearn`); it enters as `cosSim`, the pairwise cosine
similarity by row position, with `none` modelling the vectorizer raising
(caught, logged and turned into no matches).  The `not any(texts)` guard
only fires on an empty frame, because every joined text contains a
space. -/
def findSemanticDuplicates (cfg : Config) (cosSim : Option (Nat → Nat → ℚ))
    (df : List ProcRecord) : List DuplicateMatch :=
  if !cfg.enableAdvancedMatching then []
  else if df.isEmpty then []
  else
    match cosSim with
    | none => []
    | some sim =>
      (allPairs df.enum).filterMap (fun p =>
        if cfg.mediumSimilarity ≤ sim p.1.1 p.2.1 then
          some { job1_id := p.1.2.id, job2_id := p.2.2.id,
                 similarity_score := sim p.1.1 p.2.1,
                 match_type := ("semantic").toList,
                 reasons := [("semantic_similarity").toList],
                 confidence := sim p.1.1 p.2.1 * (8/10) }
        else none)

/-- `_find_cross_source_duplicates`: compare rows of distinct sources with
the title+company scorer at the high threshold.  Rows whose `source` cell
is missing (`NaN`) match no source group and are skipped, so sources are
the first-seen distinct present values. -/
def findCrossSourceDuplicates (cfg : Config) (df : List ProcRecord) :
    List DuplicateMatch :=
  if !(df.any (fun r => r.source.isSome)) then []
  else
    (allPairs (uniqueFirst (df.filterMap (fun r => r.source)))).flatMap
      (fun sp =>
        (df.filter (fun r => r.source == some sp.1)).flatMap (fun j1 =>
          (df.filter (fun r => r.source == some sp.2)).filterMap (fun j2 =>
            let s := calcCrossSourceSimilarity j1 j2
            if cfg.highSimilarity ≤ s then
              some { job1_id := j1.id, job2_id := j2.id,
                     similarity_score := s,
                     match_type := ("cross_source").toList,
                     reasons := [("cross_source_").toList ++ sp.1 ++ ('_' :: sp.2)],
                     confidence := s * (9/10) }
            else none)))

/-! ## Consolidation -/

/-- The canonical unordered key of a match: the two ids sorted
(`tuple(sorted([job1_id, job2_id]))`). -/
def pairKey (m : DuplicateMatch) : Str × Str :=
  if strLe m.job1_id m.job2_id then (m.job1_id, m.job2_id)
  else (m.job2_id, m.job1_id)

/-- Replace the (first) entry holding `d`'s pair key by `d` when `d` has
strictly higher confidence. -/
def replacePair (d : DuplicateMatch) : List DuplicateMatch → List DuplicateMatch
  | [] => []
  | x :: xs =>
    if pairKey x = pairKey d then
      (if x.confidence < d.confidence then d else x) :: xs
    else x :: replacePair d xs

/-- One iteration of `_consolidate_duplicates`: append an unseen pair,
otherwise keep the higher-confidence entry (ties keep the existing one). -/
def consolidateStep (acc : List DuplicateMatch) (d : DuplicateMatch) :
    List DuplicateMatch :=
  if acc.any (fun x => pairKey x = pairKey d) then replacePair d acc
  else acc ++ [d]

/-- Insertion step of the final stable sort by confidence descending. -/
def insertByConf (x : DuplicateMatch) : List DuplicateMatch → List DuplicateMatch
  | [] => [x]
  | y :: ys =>
    if y.confidence ≤ x.confidence then x :: y :: ys else y :: insertByConf x ys

/-- `all_duplicates.sort(key=confidence, reverse=True)`. -/
def sortByConfDesc (l : List DuplicateMatch) : List DuplicateMatch :=
  l.foldr insertByConf []

/-- `_consolidate_duplicates`, iterating the strategies' lists in the
stable dict order exact, fuzzy, semantic, cross_source (the `summary` key
is skipped). -/
def consolidateDuplicates (ex fz sm cx : List DuplicateMatch) :
    List DuplicateMatch :=
  sortByConfDesc ((ex ++ fz ++ sm ++ cx).foldl consolidateStep [])

/-! ## Summary and pipeline -/

/-- The summary statistics of `_generate_summary` that the claims refer
to (the per-source breakdown and histograms are not modelled). -/
structure AnalysisSummary where
  total_jobs : Nat
  duplicate_pairs : Nat
  unique_jobs_affected : Nat
  duplicate_rate : ℚ
deriving DecidableEq

/-- Number of distinct record ids appearing in some match. -/
def uniqueJobsAffected (ds : List DuplicateMatch) : Nat :=
  (uniqueFirst (ds.flatMap (fun d => [d.job1_id, d.job2_id]))).length

/-- `_generate_summary`. -/
def generateSummary (df : List ProcRecord) (ds : List DuplicateMatch) :
    AnalysisSummary :=
  { total_jobs := df.length, duplicate_pairs := ds.length,
    unique_jobs_affected := uniqueJobsAffected ds,
    duplicate_rate :=
      if 0 < df.length then (uniqueJobsAffected ds : ℚ) / (df.length : ℚ)
      else 0 }

/-- The `DuplicateAnalysisResult`. -/
structure AnalysisResults where
  exact_duplicates : List DuplicateMatch
  fuzzy_duplicates : List DuplicateMatch
  semantic_duplicates : List DuplicateMatch
  cross_source_duplicates : List DuplicateMatch
  consolidated_duplicates : List DuplicateMatch
  summary : AnalysisSummary

/-- `detect_duplicates`: preprocess, run the four strategies, consolidate,
summarize.  An uncaught `KeyError` from preprocessing propagates. -/
def detectDuplicates (cfg : Config) (cosSim : Option (Nat → Nat → ℚ))
    (jobs : List RawRecord) : Except String AnalysisResults :=
  match preprocessData jobs with
  | Except.error e => Except.error e
  | Except.ok df =>
    let ex := findExactDuplicates df
    let fz := findFuzzyDuplicates cfg df
    let sm := findSemanticDuplicates cfg cosSim df
    let cx := findCrossSourceDuplicates cfg df
    let cons := consolidateDuplicates ex fz sm cx
    Except.ok { exact_duplicates := ex, fuzzy_duplicates := fz,
                semantic_duplicates := sm, cross_source_duplicates := cx,
                consolidated_duplicates := cons,
                summary := generateSummary df cons }

/-! ## Resolver (`remove_duplicates`) -/

/-- The fixed source priority table of the `keep_best_source` policy;
unknown sources (and a missing source, read as `''`) get 999. -/
def sourcePriority (s : Option Str) : Nat :=
  if s == some (("merojob").toList) then 1
  else if s == some (("jobaxle").toList) then 2
  else if s == some (("froxjob").toList) then 3
  else if s == some (("hamrojobs").toList) then 4
  else 999

/-- One iteration of the removal loop of `remove_duplicates`: matches
below `min_confidence` are skipped; `keep_first` discards the second id;
`keep_best_source` looks both records up (`next(...)` raises
`StopIteration` when an id is absent) and discards the lower-priority
side; any other policy name matches no branch and silently discards
nothing. -/
def removeStep (cfg : Config) (jobs : List RawRecord) (strategy : Str)
    (acc : Except String (List Str)) (dup : DuplicateMatch) :
    Except String (List Str) :=
  match acc with
  | Except.error e => Except.error e
  | Except.ok toRemove =>
    if cfg.minConfidence ≤ dup.confidence then
      if strategy == ("keep_first").toList then
        Except.ok (toRemove ++ [dup.job2_id])
      else if strategy == ("keep_best_source").toList then
        match jobs.find? (fun j => (j.id.getD []) == dup.job1_id),
              jobs.find? (fun j => (j.id.getD []) == dup.job2_id) with
        | some j1, some j2 =>
          if sourcePriority j1.source ≤ sourcePriority j2.source then
            Except.ok (toRemove ++ [dup.job2_id])
          else Except.ok (toRemove ++ [dup.job1_id])
        | _, _ => Except.error "StopIteration"
      else Except.ok toRemove
    else Except.ok toRemove

/-- `remove_duplicates`: build the discard set over all matches, then
filter it out of the record list in one pass. -/
def removeDuplicates (cfg : Config) (jobs : List RawRecord)
    (dups : List DuplicateMatch) (strategy : Str) :
    Except String (List RawRecord) :=
  match dups.foldl (removeStep cfg jobs strategy) (Except.ok []) with
  | Except.error e => Except.error e
  | Except.ok toRemove =>
    Except.ok (jobs.filter (fun j => !(toRemove.contains (j.id.getD []))))

/-- Shape of a legal-entity suffix pattern: a single word, or two words
joined by one space. -/
def SuffixShape (p : Str) : Prop :=
  (p ≠ [] ∧ ∀ c ∈ p, isWordChar c = true) ∨
  (∃ p1 p2, p = p1 ++ ' ' :: p2 ∧ p1 ≠ [] ∧ p2 ≠ [] ∧
    (∀ c ∈ p1, isWordChar c = true) ∧ (∀ c ∈ p2, isWordChar c = true))

/-- The nine suffixes that are single words. -/
def singleWordSuffixes : List Str :=
  (["ltd", "inc", "corp", "corporation", "company", "co", "limited", "llc",
    "plc"]).map String.toList

/-! ## Spec-side definitions and concrete records used by the claims -/

/-- The spec's per-pair survivor rule: keep the entry with the higher
confidence; ties keep the entry already held (the first seen). -/
def updOpt (o : Option DuplicateMatch) (d : DuplicateMatch) :
    Option DuplicateMatch :=
  match o with
  | none => some d
  | some y => if y.confidence < d.confidence then some d else some y

/-- Stated by the spec for the Match Consolidator: the surviving entry for
a pair is the first-seen entry of maximal confidence among all reports, in
the iteration order exact, fuzzy, semantic, cross_source. -/
def firstMaxSel (l : List DuplicateMatch) : Option DuplicateMatch :=
  l.foldl updOpt none

/-- View of an optional match as a zero- or one-element list. -/
def optToList : Option DuplicateMatch → List DuplicateMatch
  | none => []
  | some m => [m]

/-- The survivor selection restricted to one pair key, folded over a
report list. -/
def selFoldK (k : Str × Str) (o : Option DuplicateMatch)
    (L : List DuplicateMatch) : Option DuplicateMatch :=
  L.foldl (fun o d => if pairKey d = k then updOpt o d else o) o

/-- Claim C4's stated formula: the weighted five-field combination (title,
company, location, description, salary) with fields absent on either
record excluded from numerator and denominator; salary is compared on the
raw salary strings, since the code derives no cleaned salary column. -/
def specFuzzySimilarity (cfg : Config) (j1 j2 : ProcRecord) : ℚ :=
  let acc := accumulate (accumulate (accumulate (accumulate (accumulate (0, 0)
    cfg.weightTitle (simOf j1.title_clean j2.title_clean))
    cfg.weightCompany (simOf j1.company_normalized j2.company_normalized))
    cfg.weightLocation (simOf j1.location_clean j2.location_clean))
    cfg.weightDescription (simOf j1.description_clean j2.description_clean))
    cfg.weightSalary (simOf j1.salary j2.salary)
  if 0 < acc.2 then acc.1 / acc.2 else 0

/-- Renormalized weighted combination over (weight, optional similarity)
terms: absent terms are excluded from both numerator and denominator, and
the score is 0 when nothing is present. -/
def renormScore (terms : List (ℚ × Option ℚ)) : ℚ :=
  let present := terms.filterMap (fun t => t.2.map (fun v => (t.1, v)))
  let den := (present.map (fun t => t.1)).sum
  let num := (present.map (fun t => t.1 * t.2)).sum
  if 0 < den then num / den else 0

/-- The underlying string ratio is symmetric on the two field values, when
both are present. -/
def symAt (x y : Option Str) : Prop :=
  ∀ a b, x = some a → y = some b → ratio a b = ratio b a

/-- A processed row with no derived columns and fingerprint `f`. -/
def exProcA : ProcRecord :=
  { id := ("1").toList, source := none, title_clean := none,
    title_normalized := none, company_clean := none,
    company_normalized := none, location_clean := none,
    description_clean := none, salary := none,
    fingerprint := ("f").toList }

/-- A second row with the same fingerprint. -/
def exProcB : ProcRecord := { exProcA with id := ("2").toList }

/-- The exact match the fingerprint group `f` produces. -/
def exMatch : DuplicateMatch :=
  { job1_id := ("1").toList, job2_id := ("2").toList, similarity_score := 1,
    match_type := ("exact").toList,
    reasons := [("identical_fingerprint").toList], confidence := 1 }

/-- A processed row whose compared fields are all empty strings. -/
def emptyProc1 : ProcRecord :=
  { id := ("1").toList, source := none, title_clean := some [],
    title_normalized := none, company_clean := none,
    company_normalized := some [], location_clean := some [],
    description_clean := some [], salary := none, fingerprint := [] }

/-- A second all-empty row. -/
def emptyProc2 : ProcRecord := { emptyProc1 with id := ("2").toList }

/-- A row whose only derived column is the cleaned title `tide`. -/
def tideRec : ProcRecord :=
  { id := ("1").toList, source := none,
    title_clean := some (("tide").toList), title_normalized := none,
    company_clean := none, company_normalized := none,
    location_clean := none, description_clean := none, salary := none,
    fingerprint := [] }

/-- A row whose only derived column is the cleaned title `diet`. -/
def dietRec : ProcRecord :=
  { tideRec with
    id := ("2").toList,
    title_clean := some (("diet").toList) }

/-- A row with title `ab` only, for the symmetry witness. -/
def symRec1 : ProcRecord :=
  { tideRec with title_clean := some (("ab").toList) }

/-- A second row with the same title. -/
def symRec2 : ProcRecord := { symRec1 with id := ("2").toList }

/-- A row whose four compared fields are all `a` and whose raw salary is
`1`. -/
def salRec1 : ProcRecord :=
  { id := ("1").toList, source := none, title_clean := some ['a'],
    title_normalized := none, company_clean := none,
    company_normalized := some ['a'], location_clean := some ['a'],
    description_clean := some ['a'], salary := some ['1'],
    fingerprint := [] }

/-- The same row except salary `2`. -/
def salRec2 : ProcRecord :=
  { salRec1 with id := ("2").toList, salary := some ['2'] }

/-- An exact report for the pair (a, b) with confidence 1. -/
def cm1 : DuplicateMatch :=
  { job1_id := ("a").toList, job2_id := ("b").toList, similarity_score := 1,
    match_type := ("exact").toList, reasons := [], confidence := 1 }

/-- A fuzzy report for the same pair with confidence 0. -/
def cm2 : DuplicateMatch :=
  { cm1 with match_type := ("fuzzy").toList, confidence := 0 }

/-! ## Lemmas about the `SequenceMatcher` embedding -/

theorem commonPrefixLen_le_left (x y : Str) : commonPrefixLen x y ≤ x.length := by
  induction x generalizing y with
  | nil => cases y <;> simp [commonPrefixLen]
  | cons a as ih =>
    cases y with
    | nil => simp [commonPrefixLen]
    | cons b bs =>
      simp only [commonPrefixLen, List.length_cons]
      split
      · exact Nat.succ_le_succ (ih bs)
      · exact Nat.zero_le _

theorem commonPrefixLen_le_right (x y : Str) : commonPrefixLen x y ≤ y.length := by
  induction x generalizing y with
  | nil => cases y <;> simp [commonPrefixLen]
  | cons a as ih =>
    cases y with
    | nil => simp [commonPrefixLen]
    | cons b bs =>
      simp only [commonPrefixLen, List.length_cons]
      split
      · exact Nat.succ_le_succ (ih bs)
      · exact Nat.zero_le _

theorem foldr_max_mem (l : List Nat) : l.foldr max 0 = 0 ∨ l.foldr max 0 ∈ l := by
  induction l with
  | nil => left; rfl
  | cons x xs ih =>
    simp only [List.foldr_cons]
    rcases Nat.le_total x (xs.foldr max 0) with h | h
    · rw [Nat.max_eq_right h]
      rcases ih with h0 | hm
      · left; exact h0
      · right; exact List.mem_cons_of_mem _ hm
    · rw [Nat.max_eq_left h]
      right; exact List.mem_cons_self _ _

theorem flm_bounds (a b : Str) :
    (flm a b).1 + (flm a b).2.2 ≤ a.length ∧
    (flm a b).2.1 + (flm a b).2.2 ≤ b.length := by
  unfold flm
  by_cases hk : bestSize a b = 0
  · simp [hk]
  · simp only [hk, if_false]
    -- the best size is attained at some in-range pair
    have hmem : bestSize a b ∈ allExts a b := by
      rcases foldr_max_mem (allExts a b) with h0 | hm
      · exact absurd h0 hk
      · exact hm
    rcases List.mem_flatMap.mp hmem with ⟨i0, hi0, hrow⟩
    rcases List.mem_map.mp hrow with ⟨j0, hj0, hij⟩
    have hi0' : i0 < a.length := List.mem_range.mp hi0
    have hj0' : j0 < b.length := List.mem_range.mp hj0
    -- the outer search succeeds
    have hsome : ((List.range a.length).find?
        (fun i => (List.range b.length).any
          (fun j => bestSize a b ≤ extLen a b i j))).isSome = true := by
      rw [List.find?_isSome]
      refine ⟨i0, hi0, ?_⟩
      rw [List.any_eq_true]
      exact ⟨j0, hj0, by simp [hij]⟩
    obtain ⟨iv, hfind⟩ := Option.isSome_iff_exists.mp hsome
    rw [hfind]
    simp only [Option.getD_some]
    have hiv_p := List.find?_some hfind
    rw [List.any_eq_true] at hiv_p
    rcases hiv_p with ⟨jv0, hjv0, hjp0⟩
    have hsome2 : ((List.range b.length).find?
        (fun j => bestSize a b ≤ extLen a b iv j)).isSome = true := by
      rw [List.find?_isSome]
      exact ⟨jv0, hjv0, hjp0⟩
    obtain ⟨jv, hjfind⟩ := Option.isSome_iff_exists.mp hsome2
    rw [hjfind]
    simp only [Option.getD_some]
    have hjv_raw := List.find?_some hjfind
    have hjv_p : bestSize a b ≤ extLen a b iv jv := of_decide_eq_true hjv_raw
    have hjp0' : bestSize a b ≤ extLen a b iv jv0 := of_decide_eq_true hjp0
    constructor
    · have h1 : extLen a b iv jv0 ≤ a.length - iv := by
        have := commonPrefixLen_le_left (a.drop iv) (b.drop jv0)
        simpa [extLen, List.length_drop] using this
      omega
    · have h2 : extLen a b iv jv ≤ b.length - jv := by
        have := commonPrefixLen_le_right (a.drop iv) (b.drop jv)
        simpa [extLen, List.length_drop] using this
      omega

theorem totalMatchedF_le (fuel : Nat) (a b : Str) :
    totalMatchedF fuel a b ≤ a.length ∧ totalMatchedF fuel a b ≤ b.length := by
  induction fuel generalizing a b with
  | zero => simp [totalMatchedF]
  | succ fuel ih =>
    rw [totalMatchedF]
    by_cases hk : (flm a b).2.2 = 0
    · simp [hk]
    · simp only [hk, if_false]
      have hb := flm_bounds a b
      have hL := ih (a.take (flm a b).1) (b.take (flm a b).2.1)
      have hR := ih (a.drop ((flm a b).1 + (flm a b).2.2))
        (b.drop ((flm a b).2.1 + (flm a b).2.2))
      simp only [List.length_take, List.length_drop] at hL hR
      omega

theorem totalMatched_le (a b : Str) :
    totalMatched a b ≤ a.length ∧ totalMatched a b ≤ b.length :=
  totalMatchedF_le (a.length + b.length) a b

theorem ratio_nonneg (a b : Str) : 0 ≤ ratio a b := by
  unfold ratio
  split
  · norm_num
  · rename_i h
    have hpos : (0 : ℚ) < (a.length : ℚ) + (b.length : ℚ) := by
      have : 0 < a.length + b.length := Nat.pos_of_ne_zero h
      exact_mod_cast this
    positivity

theorem ratio_le_one (a b : Str) : ratio a b ≤ 1 := by
  unfold ratio
  split
  · norm_num
  · rename_i h
    have hle := totalMatched_le a b
    have hpos : (0 : ℚ) < (a.length : ℚ) + (b.length : ℚ) := by
      have : 0 < a.length + b.length := Nat.pos_of_ne_zero h
      exact_mod_cast this
    rw [div_le_one hpos]
    have : 2 * totalMatched a b ≤ a.length + b.length := by omega
    exact_mod_cast this

/-! ## Character-level lemmas -/

theorem charToNat_ofNat_valid (m : Nat) (h : m.isValidChar) :
    (Char.ofNat m).toNat = m := by
  rw [Char.ofNat, dif_pos h]
  simp only [Char.ofNatAux, Char.toNat, UInt32.ofNat', UInt32.toNat, BitVec.ofNatLt]
  rfl

theorem toLower_toLower (c : Char) : c.toLower.toLower = c.toLower := by
  unfold Char.toLower
  by_cases h : c.toNat ≥ 65 ∧ c.toNat ≤ 90
  · rw [if_pos h]
    have hv : (Char.ofNat (c.toNat + 32)).toNat = c.toNat + 32 := by
      apply charToNat_ofNat_valid
      left
      omega
    rw [if_neg]
    rw [hv]
    omega
  · rw [if_neg h, if_neg h]

theorem not_word_of_ws {c : Char} (h : isWsChar c = true) :
    isWordChar c = false := by
  simp only [isWsChar, Bool.or_eq_true, decide_eq_true_eq] at h
  rcases h with ((h | h) | h) | h <;> subst h <;> decide

/-! ## Run decomposition lemmas (`runsP`) -/

theorem runsP_nil (P : Char → Bool) : runsP P [] = [] := by
  rw [runsP]

theorem runsP_cons_neg {P : Char → Bool} {c : Char} (cs : Str)
    (h : P c = false) : runsP P (c :: cs) = runsP P cs := by
  rw [runsP]
  simp [h]

theorem runsP_cons_pos {P : Char → Bool} {c : Char} (cs : Str)
    (h : P c = true) :
    runsP P (c :: cs) = (c :: cs.takeWhile P) :: runsP P (cs.dropWhile P) := by
  rw [runsP]
  simp [h]

theorem takeWhile_eq_self_of_all {P : Char → Bool} {u : Str}
    (h : ∀ c ∈ u, P c = true) : u.takeWhile P = u := by
  induction u with
  | nil => rfl
  | cons c cs ih =>
    rw [List.takeWhile_cons, h c (List.mem_cons_self c cs)]
    exact congrArg (c :: ·) (ih (fun d hd => h d (List.mem_cons_of_mem c hd)))

theorem takeWhile_eq_nil_of_head {P : Char → Bool} {t : Str}
    (h : ∀ d, t.head? = some d → P d = false) : t.takeWhile P = [] := by
  cases t with
  | nil => rfl
  | cons d ds =>
    rw [List.takeWhile_cons, h d rfl]
    rfl

theorem dropWhile_eq_self_of_head {P : Char → Bool} {t : Str}
    (h : ∀ d, t.head? = some d → P d = false) : t.dropWhile P = t := by
  cases t with
  | nil => rfl
  | cons d ds =>
    rw [List.dropWhile_cons, h d rfl]
    rfl

theorem takeWhile_word_append {P : Char → Bool} {u t : Str}
    (hu : ∀ c ∈ u, P c = true)
    (ht : ∀ d, t.head? = some d → P d = false) :
    (u ++ t).takeWhile P = u := by
  induction u with
  | nil => exact takeWhile_eq_nil_of_head ht
  | cons c cs ih =>
    rw [List.cons_append, List.takeWhile_cons, hu c (List.mem_cons_self c cs)]
    exact congrArg (c :: ·) (ih (fun d hd => hu d (List.mem_cons_of_mem c hd)))

theorem dropWhile_word_append {P : Char → Bool} {u t : Str}
    (hu : ∀ c ∈ u, P c = true)
    (ht : ∀ d, t.head? = some d → P d = false) :
    (u ++ t).dropWhile P = t := by
  induction u with
  | nil => exact dropWhile_eq_self_of_head ht
  | cons c cs ih =>
    rw [List.cons_append, List.dropWhile_cons, hu c (List.mem_cons_self c cs)]
    exact ih (fun d hd => hu d (List.mem_cons_of_mem c hd))

theorem runsP_word_append {P : Char → Bool} {u t : Str} (hne : u ≠ [])
    (hu : ∀ c ∈ u, P c = true)
    (ht : ∀ d, t.head? = some d → P d = false) :
    runsP P (u ++ t) = u :: runsP P t := by
  cases u with
  | nil => exact absurd rfl hne
  | cons c cs =>
    rw [List.cons_append,
      runsP_cons_pos _ (hu c (List.mem_cons_self c cs)),
      takeWhile_word_append (fun d hd => hu d (List.mem_cons_of_mem c hd)) ht,
      dropWhile_word_append (fun d hd => hu d (List.mem_cons_of_mem c hd)) ht]

theorem runsP_sep_append {P : Char → Bool} {u : Str} (t : Str)
    (hu : ∀ c ∈ u, P c = false) :
    runsP P (u ++ t) = runsP P t := by
  induction u with
  | nil => rfl
  | cons c cs ih =>
    rw [List.cons_append, runsP_cons_neg _ (hu c (List.mem_cons_self c cs))]
    exact ih (fun d hd => hu d (List.mem_cons_of_mem c hd))

theorem mem_of_mem_takeWhile {P : Char → Bool} {c : Char} {l : Str}
    (h : c ∈ l.takeWhile P) : c ∈ l :=
  (List.takeWhile_sublist P).subset h

theorem takeWhile_all {P : Char → Bool} {c : Char} {l : Str}
    (h : c ∈ l.takeWhile P) : P c = true := by
  induction l with
  | nil => simp [List.takeWhile_nil] at h
  | cons d ds ih =>
    rw [List.takeWhile_cons] at h
    by_cases hd : P d = true
    · rw [if_pos hd] at h
      rcases List.mem_cons.mp h with h | h
      · exact h ▸ hd
      · exact ih h
    · rw [if_neg hd] at h
      simp at h

theorem runsP_chars {P : Char → Bool} {l : Str} :
    ∀ w ∈ runsP P l, w ≠ [] ∧ ∀ c ∈ w, P c = true ∧ c ∈ l := by
  generalize hn : l.length = n
  induction n using Nat.strong_induction_on generalizing l with
  | _ n ih =>
    intro w hw
    cases l with
    | nil => rw [runsP_nil] at hw; simp at hw
    | cons c cs =>
      by_cases hc : P c = true
      · rw [runsP_cons_pos _ hc] at hw
        rcases List.mem_cons.mp hw with h | h
        · subst h
          refine ⟨by simp, ?_⟩
          intro d hd
          rcases List.mem_cons.mp hd with h | h
          · exact ⟨h ▸ hc, h ▸ List.mem_cons_self c cs⟩
          · exact ⟨takeWhile_all h,
              List.mem_cons_of_mem c (mem_of_mem_takeWhile h)⟩
        · have hlen : (cs.dropWhile P).length < n := by
            have := (List.dropWhile_sublist P (l := cs)).length_le
            simp only [← hn, List.length_cons]
            omega
          obtain ⟨h1, h2⟩ := ih _ hlen rfl w h
          refine ⟨h1, fun d hd => ?_⟩
          obtain ⟨hP, hmem⟩ := h2 d hd
          exact ⟨hP, List.mem_cons_of_mem c
            ((List.dropWhile_sublist P).subset hmem)⟩
      · rw [runsP_cons_neg _ (Bool.eq_false_iff.mpr hc)] at hw
        have hlen : cs.length < n := by
          simp only [← hn, List.length_cons]
          omega
        obtain ⟨h1, h2⟩ := ih _ hlen rfl w hw
        refine ⟨h1, fun d hd => ?_⟩
        obtain ⟨hP, hmem⟩ := h2 d hd
        exact ⟨hP, List.mem_cons_of_mem c hmem⟩

theorem runsP_eq_nil_of_all_neg {P : Char → Bool} {u : Str}
    (hu : ∀ c ∈ u, P c = false) : runsP P u = [] := by
  induction u with
  | nil => exact runsP_nil P
  | cons c cs ih =>
    rw [runsP_cons_neg _ (hu c (List.mem_cons_self c cs))]
    exact ih (fun d hd => hu d (List.mem_cons_of_mem c hd))

theorem runsP_append_sep_right {P : Char → Bool} {u : Str} (t : Str)
    (hu : ∀ c ∈ u, P c = false) :
    runsP P (t ++ u) = runsP P t := by
  generalize hn : t.length = n
  induction n using Nat.strong_induction_on generalizing t with
  | _ n ih =>
    cases t with
    | nil =>
      rw [List.nil_append, runsP_nil]
      exact runsP_eq_nil_of_all_neg hu
    | cons c cs =>
      by_cases hc : P c = true
      · rw [List.cons_append, runsP_cons_pos _ hc, runsP_cons_pos _ hc]
        by_cases hall : ∀ d ∈ cs, P d = true
        · have ht1 : (cs ++ u).takeWhile P = cs := by
            have hhd : ∀ d, u.head? = some d → P d = false := by
              intro d hd
              cases u with
              | nil => simp at hd
              | cons e es =>
                simp only [List.head?_cons, Option.some.injEq] at hd
                exact hd ▸ hu e (List.mem_cons_self e es)
            exact takeWhile_word_append hall hhd
          have ht2 : cs.takeWhile P = cs := takeWhile_eq_self_of_all hall
          have hd1 : (cs ++ u).dropWhile P = u := by
            have hhd : ∀ d, u.head? = some d → P d = false := by
              intro d hd
              cases u with
              | nil => simp at hd
              | cons e es =>
                simp only [List.head?_cons, Option.some.injEq] at hd
                exact hd ▸ hu e (List.mem_cons_self e es)
            exact dropWhile_word_append hall hhd
          have hd2 : cs.dropWhile P = [] := by
            rw [List.dropWhile_eq_nil_iff]
            intro x hx
            exact hall x hx
          rw [ht1, ht2, hd1, hd2, runsP_nil]
          rw [runsP_eq_nil_of_all_neg hu]
        · -- cs has a failing element, so takeWhile/dropWhile stop inside cs
          have hne : cs.dropWhile P ≠ [] := by
            intro hcon
            rw [List.dropWhile_eq_nil_iff] at hcon
            exact hall hcon
          have hlt : (cs.takeWhile P).length ≠ cs.length := by
            intro hcon
            have heq : cs.takeWhile P = cs :=
              (List.takeWhile_sublist P).eq_of_length hcon
            have : cs.dropWhile P = [] := by
              have hsplit := List.takeWhile_append_dropWhile (p := P) (l := cs)
              have hl := congrArg List.length hsplit
              rw [List.length_append, hcon] at hl
              have : (cs.dropWhile P).length = 0 := by omega
              exact List.length_eq_zero.mp this
            exact hne this
          have ht1 : (cs ++ u).takeWhile P = cs.takeWhile P := by
            rw [List.takeWhile_append, if_neg hlt]
          have hd1 : (cs ++ u).dropWhile P = cs.dropWhile P ++ u := by
            rw [List.dropWhile_append]
            rw [if_neg]
            simp only [List.isEmpty_iff]
            exact hne
          rw [ht1, hd1]
          have hlen : (cs.dropWhile P).length < n := by
            have := (List.dropWhile_sublist P (l := cs)).length_le
            simp only [← hn, List.length_cons]
            omega
          rw [ih _ hlen _ rfl]
      · rw [List.cons_append,
          runsP_cons_neg _ (Bool.eq_false_iff.mpr hc),
          runsP_cons_neg _ (Bool.eq_false_iff.mpr hc)]
        have hlen : cs.length < n := by
          simp only [← hn, List.length_cons]
          omega
        exact ih _ hlen _ rfl

/-! ## Collapse, strip and join lemmas -/

theorem collapseAux_cons_neg {c : Char} (b : Bool) (t : Str)
    (h : isWsChar c = false) :
    collapseAux b (c :: t) = c :: collapseAux false t := by
  simp [collapseAux, h]

theorem collapseAux_append_neg {u : Str} (t : Str)
    (hu : ∀ c ∈ u, isWsChar c = false) :
    collapseAux false (u ++ t) = u ++ collapseAux false t := by
  induction u with
  | nil => rfl
  | cons c cs ih =>
    rw [List.cons_append,
      collapseAux_cons_neg false _ (hu c (List.mem_cons_self c cs)),
      ih (fun d hd => hu d (List.mem_cons_of_mem c hd)), List.cons_append]

theorem collapseAux_word {u : Str} (t : Str) (b : Bool) (hne : u ≠ [])
    (hu : ∀ c ∈ u, isWsChar c = false) :
    collapseAux b (u ++ t) = u ++ collapseAux false t := by
  cases u with
  | nil => exact absurd rfl hne
  | cons c cs =>
    rw [List.cons_append,
      collapseAux_cons_neg b _ (hu c (List.mem_cons_self c cs)),
      collapseAux_append_neg _ (fun d hd => hu d (List.mem_cons_of_mem c hd)),
      List.cons_append]

theorem collapseAux_chars {t : Str} :
    ∀ b, ∀ c ∈ collapseAux b t, c = ' ' ∨ (isWsChar c = false ∧ c ∈ t) := by
  induction t with
  | nil => intro b c hc; simp [collapseAux] at hc
  | cons d ds ih =>
    intro b c hc
    by_cases hd : isWsChar d = true
    · rw [show collapseAux b (d :: ds) =
          (if b then collapseAux true ds else ' ' :: collapseAux true ds) from by
            simp [collapseAux, hd]] at hc
      by_cases hb : b
      · rw [if_pos hb] at hc
        rcases ih true c hc with h | ⟨h1, h2⟩
        · exact Or.inl h
        · exact Or.inr ⟨h1, List.mem_cons_of_mem d h2⟩
      · rw [if_neg hb] at hc
        rcases List.mem_cons.mp hc with h | h
        · exact Or.inl h
        · rcases ih true c h with h' | ⟨h1, h2⟩
          · exact Or.inl h'
          · exact Or.inr ⟨h1, List.mem_cons_of_mem d h2⟩
    · rw [collapseAux_cons_neg b _ (Bool.eq_false_iff.mpr hd)] at hc
      rcases List.mem_cons.mp hc with h | h
      · exact Or.inr ⟨h ▸ Bool.eq_false_iff.mpr hd, h ▸ List.mem_cons_self d ds⟩
      · rcases ih false c h with h' | ⟨h1, h2⟩
        · exact Or.inl h'
        · exact Or.inr ⟨h1, List.mem_cons_of_mem d h2⟩

theorem collapse_join {ws : List Str}
    (h : ∀ w ∈ ws, w ≠ [] ∧ ∀ c ∈ w, isWsChar c = false) :
    ∀ b, collapseAux b (joinSpace ws) = joinSpace ws := by
  induction ws with
  | nil => intro b; rfl
  | cons w rest ih =>
    intro b
    obtain ⟨hne, hw⟩ := h w (List.mem_cons_self w rest)
    cases rest with
    | nil =>
      show collapseAux b w = w
      have := collapseAux_word [] b hne hw
      simpa [collapseAux] using this
    | cons r rest' =>
      show collapseAux b (w ++ ' ' :: joinSpace (r :: rest')) =
        w ++ ' ' :: joinSpace (r :: rest')
      rw [collapseAux_word _ b hne hw]
      congr 1
      show (if isWsChar ' ' then
          (if false then collapseAux true (joinSpace (r :: rest'))
           else ' ' :: collapseAux true (joinSpace (r :: rest')))
        else _) = ' ' :: joinSpace (r :: rest')
      rw [if_pos (by decide), if_neg (by simp)]
      exact congrArg (' ' :: ·)
        (ih (fun v hv => h v (List.mem_cons_of_mem w hv)) true)

theorem mem_of_mem_stripWs {c : Char} {t : Str} (h : c ∈ stripWs t) : c ∈ t := by
  unfold stripWs at h
  rw [List.mem_reverse] at h
  have h1 := (List.dropWhile_sublist isWsChar).subset h
  rw [List.mem_reverse] at h1
  exact (List.dropWhile_sublist isWsChar).subset h1

theorem stripWs_eq_self {s : Str}
    (h1 : ∀ d, s.head? = some d → isWsChar d = false)
    (h2 : ∀ d, s.getLast? = some d → isWsChar d = false) :
    stripWs s = s := by
  unfold stripWs
  rw [dropWhile_eq_self_of_head h1]
  rw [dropWhile_eq_self_of_head
    (fun d hd => h2 d (by rwa [List.head?_reverse] at hd))]
  exact List.reverse_reverse s

theorem joinSpace_ne_nil {ws : List Str} (hne : ws ≠ [])
    (h : ∀ w ∈ ws, w ≠ []) : joinSpace ws ≠ [] := by
  cases ws with
  | nil => exact absurd rfl hne
  | cons w rest =>
    cases rest with
    | nil => exact h w (List.mem_cons_self w [])
    | cons r rest' =>
      show w ++ ' ' :: joinSpace (r :: rest') ≠ []
      simp

theorem joinSpace_chars {ws : List Str} :
    ∀ c ∈ joinSpace ws, c = ' ' ∨ ∃ w ∈ ws, c ∈ w := by
  induction ws with
  | nil => intro c hc; simp [joinSpace] at hc
  | cons w rest ih =>
    intro c hc
    cases rest with
    | nil =>
      exact Or.inr ⟨w, List.mem_cons_self w [], hc⟩
    | cons r rest' =>
      rw [show joinSpace (w :: r :: rest') = w ++ ' ' :: joinSpace (r :: rest')
        from rfl] at hc
      rcases List.mem_append.mp hc with h | h
      · exact Or.inr ⟨w, List.mem_cons_self w _, h⟩
      · rcases List.mem_cons.mp h with h | h
        · exact Or.inl h
        · rcases ih c h with h' | ⟨v, hv, hcv⟩
          · exact Or.inl h'
          · exact Or.inr ⟨v, List.mem_cons_of_mem w hv, hcv⟩

theorem joinSpace_head {ws : List Str} (h : ∀ w ∈ ws, w ≠ []) :
    ∀ d, (joinSpace ws).head? = some d → ∃ w ∈ ws, d ∈ w := by
  intro d hd
  cases ws with
  | nil => simp [joinSpace] at hd
  | cons w rest =>
    have hwne := h w (List.mem_cons_self w rest)
    cases rest with
    | nil =>
      refine ⟨w, List.mem_cons_self w [], ?_⟩
      exact List.mem_of_mem_head? (Option.mem_def.mpr hd)
    | cons r rest' =>
      rw [show joinSpace (w :: r :: rest') = w ++ ' ' :: joinSpace (r :: rest')
        from rfl, List.head?_append_of_ne_nil w hwne] at hd
      exact ⟨w, List.mem_cons_self w _,
        List.mem_of_mem_head? (Option.mem_def.mpr hd)⟩

theorem joinSpace_getLast {ws : List Str} (h : ∀ w ∈ ws, w ≠ []) :
    ∀ d, (joinSpace ws).getLast? = some d → ∃ w ∈ ws, d ∈ w := by
  induction ws with
  | nil => intro d hd; simp [joinSpace] at hd
  | cons w rest ih =>
    intro d hd
    cases rest with
    | nil =>
      refine ⟨w, List.mem_cons_self w [], ?_⟩
      exact List.mem_of_mem_getLast? (Option.mem_def.mpr hd)
    | cons r rest' =>
      rw [show joinSpace (w :: r :: rest') = w ++ ' ' :: joinSpace (r :: rest')
        from rfl, List.getLast?_append_of_ne_nil w (by simp)] at hd
      have hJ : joinSpace (r :: rest') ≠ [] :=
        joinSpace_ne_nil (by simp) (fun v hv => h v (List.mem_cons_of_mem w hv))
      rw [show (' ' :: joinSpace (r :: rest') : Str) =
        [' '] ++ joinSpace (r :: rest') from rfl,
        List.getLast?_append_of_ne_nil [' '] hJ] at hd
      obtain ⟨v, hv, hdv⟩ :=
        ih (fun v hv => h v (List.mem_cons_of_mem w hv)) d hd
      exact ⟨v, List.mem_cons_of_mem w hv, hdv⟩

theorem map_eq_self_of_fixed {f : Char → Char} {l : Str}
    (h : ∀ c ∈ l, f c = c) : l.map f = l := by
  induction l with
  | nil => rfl
  | cons c cs ih =>
    rw [List.map_cons, h c (List.mem_cons_self c cs),
      ih (fun d hd => h d (List.mem_cons_of_mem c hd))]

theorem runsP_join {P : Char → Bool} (hP : P ' ' = false) {ws : List Str}
    (h : ∀ w ∈ ws, w ≠ [] ∧ ∀ c ∈ w, P c = true) :
    runsP P (joinSpace ws) = ws := by
  induction ws with
  | nil => exact runsP_nil P
  | cons w rest ih =>
    obtain ⟨hne, hw⟩ := h w (List.mem_cons_self w rest)
    cases rest with
    | nil =>
      show runsP P w = [w]
      have := runsP_word_append (t := []) hne hw (by intro d hd; simp at hd)
      simpa [runsP_nil] using this
    | cons r rest' =>
      show runsP P (w ++ ' ' :: joinSpace (r :: rest')) = w :: r :: rest'
      rw [runsP_word_append hne hw
        (by intro d hd; simp only [List.head?_cons, Option.some.injEq] at hd;
            exact hd ▸ hP)]
      rw [runsP_cons_neg _ hP]
      exact congrArg (w :: ·) (ih (fun v hv => h v (List.mem_cons_of_mem w hv)))

/-! ## Idempotence of the text normalization -/

/-- Every character of a cleaned string is lowercase-stable, and is either
a space or a kept word/hyphen character. -/
theorem cleanText_chars {s : Str} :
    ∀ c ∈ cleanText s, c.toLower = c ∧
      (c = ' ' ∨ (isWsChar c = false ∧ (isWordChar c || c = '-') = true)) := by
  intro c hc
  unfold cleanText at hc
  by_cases hs : s.isEmpty
  · rw [if_pos hs] at hc
    simp at hc
  · rw [if_neg hs] at hc
    obtain ⟨d, hd, hrepl⟩ := List.mem_map.mp hc
    have hd1 : d ∈ collapseAux false (lowerStr s) := mem_of_mem_stripWs hd
    have hd2 := collapseAux_chars false d hd1
    by_cases hkeep : (isWordChar d || isWsChar d || d = '-') = true
    · rw [if_pos hkeep] at hrepl
      subst hrepl
      rcases hd2 with h | ⟨hws, hmem⟩
      · subst h
        exact ⟨by decide, Or.inl rfl⟩
      · obtain ⟨e, _, he⟩ := List.mem_map.mp hmem
        refine ⟨he ▸ toLower_toLower e, Or.inr ⟨hws, ?_⟩⟩
        simp only [Bool.or_eq_true] at hkeep ⊢
        rcases hkeep with (h | h) | h
        · exact Or.inl h
        · rw [hws] at h; exact absurd h (by simp)
        · exact Or.inr h
    · rw [if_neg hkeep] at hrepl
      subst hrepl
      exact ⟨by decide, Or.inl rfl⟩

/-- The words produced by normalizing a cleaned string: nonempty, free of
whitespace, built from kept lowercase-stable characters, and not noise
words. -/
theorem normalized_words_good {s : Str} :
    ∀ w ∈ (splitWs (cleanText s)).filter (fun w => !noiseWords.contains w),
      w ≠ [] ∧ (noiseWords.contains w) = false ∧
      ∀ c ∈ w, c.toLower = c ∧ isWsChar c = false ∧
        (isWordChar c || c = '-') = true := by
  intro w hw
  obtain ⟨hmem, hnoise⟩ := List.mem_filter.mp hw
  obtain ⟨hne, hchar⟩ := runsP_chars w hmem
  refine ⟨hne, by simpa using hnoise, fun c hc => ?_⟩
  obtain ⟨hP, hmemc⟩ := hchar c hc
  have hws : isWsChar c = false := by
    simpa using hP
  obtain ⟨hlow, hcase⟩ := cleanText_chars c hmemc
  rcases hcase with h | ⟨_, hkeep⟩
  · rw [h] at hws; exact absurd hws (by simp [isWsChar])
  · exact ⟨hlow, hws, hkeep⟩

/-- Cleaning a space-joined list of kept words changes nothing. -/
theorem cleanText_join {ws : List Str}
    (h : ∀ w ∈ ws, w ≠ [] ∧ ∀ c ∈ w, c.toLower = c ∧ isWsChar c = false ∧
      (isWordChar c || c = '-') = true) :
    cleanText (joinSpace ws) = joinSpace ws := by
  cases hws : ws with
  | nil => rfl
  | cons w0 rest =>
    subst hws
    have hne : joinSpace (w0 :: rest) ≠ [] :=
      joinSpace_ne_nil (by simp) (fun v hv => (h v hv).1)
    unfold cleanText
    rw [if_neg (by simpa [List.isEmpty_iff] using hne)]
    have hlower : lowerStr (joinSpace (w0 :: rest)) = joinSpace (w0 :: rest) := by
      apply map_eq_self_of_fixed
      intro c hc
      rcases joinSpace_chars c hc with hsp | ⟨v, hv, hcv⟩
      · rw [hsp]; decide
      · exact ((h v hv).2 c hcv).1
    rw [show lowerStr (joinSpace (w0 :: rest)) =
      (joinSpace (w0 :: rest)).map Char.toLower from rfl] at hlower ⊢
    rw [hlower]
    have hcollapse : collapseWs (joinSpace (w0 :: rest)) = joinSpace (w0 :: rest) :=
      collapse_join (fun v hv => ⟨(h v hv).1, fun c hc => ((h v hv).2 c hc).2.1⟩)
        false
    rw [hcollapse]
    have hstrip : stripWs (joinSpace (w0 :: rest)) = joinSpace (w0 :: rest) := by
      apply stripWs_eq_self
      · intro d hd
        obtain ⟨v, hv, hdv⟩ :=
          joinSpace_head (fun v hv => (h v hv).1) d hd
        exact ((h v hv).2 d hdv).2.1
      · intro d hd
        obtain ⟨v, hv, hdv⟩ :=
          joinSpace_getLast (fun v hv => (h v hv).1) d hd
        exact ((h v hv).2 d hdv).2.1
    rw [hstrip]
    apply map_eq_self_of_fixed
    intro c hc
    rcases joinSpace_chars c hc with hsp | ⟨v, hv, hcv⟩
    · rw [hsp]; decide
    · have hk := ((h v hv).2 c hcv).2.2
      rw [if_pos]
      simp only [Bool.or_eq_true] at hk ⊢
      rcases hk with hk | hk
      · exact Or.inl (Or.inl hk)
      · exact Or.inr hk

/-- Normalizing a space-joined list of whitespace-free non-noise words
changes nothing. -/
theorem normalizeText_join {ws : List Str}
    (h : ∀ w ∈ ws, w ≠ [] ∧ (noiseWords.contains w) = false ∧
      ∀ c ∈ w, isWsChar c = false) :
    normalizeText (joinSpace ws) = joinSpace ws := by
  cases hws : ws with
  | nil => rfl
  | cons w0 rest =>
    subst hws
    have hne : joinSpace (w0 :: rest) ≠ [] :=
      joinSpace_ne_nil (by simp) (fun v hv => (h v hv).1)
    unfold normalizeText
    rw [if_neg (by simpa [List.isEmpty_iff] using hne)]
    rw [show splitWs (joinSpace (w0 :: rest)) =
      runsP (fun c => !isWsChar c) (joinSpace (w0 :: rest)) from rfl]
    rw [runsP_join (by decide)
      (fun v hv => ⟨(h v hv).1, fun c hc => by simp [((h v hv).2.2 c hc)]⟩)]
    rw [List.filter_eq_self.mpr
      (fun v hv => by rw [(h v hv).2.1]; rfl)]

/-- The composed title/description normalization
(`_normalize_text` after `_clean_text`) is idempotent. -/
theorem titleNormalization_idem (s : Str) :
    normalizeText (cleanText (normalizeText (cleanText s))) =
      normalizeText (cleanText s) := by
  by_cases ht : (cleanText s).isEmpty
  · rw [show normalizeText (cleanText s) = [] from by
      unfold normalizeText; rw [if_pos ht]]
    rfl
  · have hform : normalizeText (cleanText s) =
        joinSpace ((splitWs (cleanText s)).filter
          (fun w => !noiseWords.contains w)) := by
      unfold normalizeText
      rw [if_neg ht]
    rw [hform]
    have hgood := normalized_words_good (s := s)
    rw [cleanText_join (fun w hw =>
      ⟨(hgood w hw).1, fun c hc => (hgood w hw).2.2 c hc⟩)]
    exact normalizeText_join (fun w hw =>
      ⟨(hgood w hw).1, (hgood w hw).2.1,
        fun c hc => ((hgood w hw).2.2 c hc).2.1⟩)

/-! ## Whole-word removal lemmas (`rwAux`) -/

theorem rwAux_nil (p : Str) (b : Bool) : rwAux p b [] = [] := by
  rw [rwAux]

theorem rwAux_cons_of_not_cond {p : Str} {b : Bool} {c : Char} {cs : Str}
    (h : (!b && p.isPrefixOf (c :: cs) && boundR (List.drop p.length (c :: cs))
      && !p.isEmpty) = false) :
    rwAux p b (c :: cs) = c :: rwAux p (isWordChar c) cs := by
  rw [rwAux, if_neg]
  rw [h]
  simp

theorem rwAux_cons_of_cond {p : Str} {b : Bool} {c : Char} {cs : Str}
    (h : (!b && p.isPrefixOf (c :: cs) && boundR (List.drop p.length (c :: cs))
      && !p.isEmpty) = true) :
    rwAux p b (c :: cs) =
      rwAux p (isWordChar (p.getLastD ' ')) (List.drop p.length (c :: cs)) := by
  rw [rwAux, if_pos]
  rw [h]

theorem isPrefixOf_eq_false_of_head {q c : Char} {qs cs : Str} (hne : q ≠ c) :
    (q :: qs).isPrefixOf (c :: cs) = false := by
  show (q == c && qs.isPrefixOf cs) = false
  have : (q == c) = false := by
    simp [hne]
  rw [this, Bool.false_and]

theorem rwAux_cons_neg {p : Str} {q : Char} {qs : Str} (hp : p = q :: qs)
    (hq : isWordChar q = true) {c : Char} (hc : isWordChar c = false)
    (b : Bool) (cs : Str) :
    rwAux p b (c :: cs) = c :: rwAux p false cs := by
  have hne : q ≠ c := by
    intro h
    rw [h, hc] at hq
    exact absurd hq (by simp)
  rw [rwAux_cons_of_not_cond (by rw [hp, isPrefixOf_eq_false_of_head hne]; simp)]
  rw [hc]

theorem rwAux_true_word_append {p : Str} {u : Str} (t : Str)
    (hu : ∀ c ∈ u, isWordChar c = true) :
    rwAux p true (u ++ t) = u ++ rwAux p true t := by
  induction u with
  | nil => rfl
  | cons c cs ih =>
    rw [List.cons_append, rwAux_cons_of_not_cond (by simp),
      hu c (List.mem_cons_self c cs),
      ih (fun d hd => hu d (List.mem_cons_of_mem c hd)), List.cons_append]

theorem getLastD_mem (d : Char) : ∀ (w : Str), w ≠ [] → w.getLastD d ∈ w
  | [], h => absurd rfl h
  | [c], _ => by simp [List.getLastD]
  | c :: e :: es, _ => by
    have := getLastD_mem d (e :: es) (by simp)
    rw [show (c :: e :: es).getLastD d = (e :: es).getLastD d from by
      simp [List.getLastD]]
    exact List.mem_cons_of_mem c this

theorem getLastD_append {u v : Str} (hne : v ≠ []) (d : Char) :
    (u ++ v).getLastD d = v.getLastD d := by
  induction u with
  | nil => rfl
  | cons c cs ih =>
    rw [List.cons_append]
    rw [show (c :: (cs ++ v)).getLastD d = (cs ++ v).getLastD d from ?_]
    · exact ih
    · cases hcv : cs ++ v with
      | nil =>
        rcases List.append_eq_nil.mp hcv with ⟨_, hv⟩
        exact absurd hv hne
      | cons e es => simp [List.getLastD]

theorem rwAux_match {p : Str} (t : Str) (hp : p ≠ [])
    (hlast : isWordChar (p.getLastD ' ') = true)
    (hbound : boundR t = true) :
    rwAux p false (p ++ t) = rwAux p true t := by
  have hpref : p.isPrefixOf (p ++ t) = true :=
    List.isPrefixOf_iff_prefix.mpr (List.prefix_append p t)
  have hdrop : List.drop p.length (p ++ t) = t := List.drop_left p t
  cases p with
  | nil => exact absurd rfl hp
  | cons q qs =>
    rw [List.cons_append] at hpref hdrop ⊢
    rw [rwAux_cons_of_cond (by rw [hpref, hdrop, hbound]; simp)]
    rw [hdrop, hlast]

theorem head_of_boundR {t : Str} (h : boundR t = true) :
    ∀ d, t.head? = some d → isWordChar d = false := by
  intro d hd
  cases t with
  | nil => simp at hd
  | cons e es =>
    simp only [List.head?_cons, Option.some.injEq] at hd
    subst hd
    simpa [boundR] using h

theorem boundR_of_head {t : Str}
    (h : ∀ d, t.head? = some d → isWordChar d = false) : boundR t = true := by
  cases t with
  | nil => rfl
  | cons e es =>
    simp only [boundR]
    rw [h e rfl]
    rfl

theorem rwAux_run_skip {p : Str} {run t : Str} (hrun : run ≠ [])
    (hw : ∀ c ∈ run, isWordChar c = true)
    (hcond : ¬(p.isPrefixOf (run ++ t) = true ∧
      boundR (List.drop p.length (run ++ t)) = true)) :
    rwAux p false (run ++ t) = run ++ rwAux p true t := by
  cases run with
  | nil => exact absurd rfl hrun
  | cons c cs =>
    rw [List.cons_append]
    rw [rwAux_cons_of_not_cond (by
      rcases h1 : p.isPrefixOf (c :: (cs ++ t)) with _ | _
      · simp
      · rcases h2 : boundR (List.drop p.length (c :: (cs ++ t))) with _ | _
        · simp
        · exact absurd ⟨by rw [← List.cons_append] at h1; exact h1,
            by rw [← List.cons_append] at h2; exact h2⟩ hcond)]
    rw [hw c (List.mem_cons_self c cs),
      rwAux_true_word_append t (fun d hd => hw d (List.mem_cons_of_mem c hd)),
      List.cons_append]

theorem getLastD_word {w : Str} (hne : w ≠ [])
    (hw : ∀ c ∈ w, isWordChar c = true) :
    isWordChar (w.getLastD ' ') = true :=
  hw _ (getLastD_mem ' ' w hne)

/-- A single-word pass deletes exactly the maximal word runs equal to the
pattern: the runs of the output are the runs of the input with every copy
of the pattern removed. -/
theorem removeWord_runs_single {w : Str} (hwne : w ≠ [])
    (hw : ∀ c ∈ w, isWordChar c = true) (s : Str) :
    runsP isWordChar (rwAux w false s) =
      (runsP isWordChar s).filter (fun r => !(r == w)) := by
  obtain ⟨q, qs, hwq⟩ : ∃ q qs, w = q :: qs := by
    cases w with
    | nil => exact absurd rfl hwne
    | cons q qs => exact ⟨q, qs, rfl⟩
  have hq : isWordChar q = true := hw q (hwq ▸ List.mem_cons_self q qs)
  generalize hn : s.length = n
  induction n using Nat.strong_induction_on generalizing s with
  | _ n ih =>
    cases s with
    | nil =>
      rw [rwAux_nil, runsP_nil]
      rfl
    | cons c cs =>
      by_cases hc : isWordChar c = true
      · by_cases hcond : (w.isPrefixOf (c :: cs) = true ∧
            boundR (List.drop w.length (c :: cs)) = true)
        · -- a match at the head: the string starts with `w` at a boundary
          have hseq : c :: cs = w ++ List.drop w.length (c :: cs) := by
            have htake : w = List.take w.length (c :: cs) :=
              List.prefix_iff_eq_take.mp
                (List.isPrefixOf_iff_prefix.mp hcond.1)
            conv_lhs => rw [← List.take_append_drop w.length (c :: cs)]
            rw [← htake]
          have hbr : boundR (List.drop w.length (c :: cs)) = true := hcond.2
          have hrest_head := head_of_boundR hbr
          rw [hseq, rwAux_match _ hwne (getLastD_word hwne hw) hbr,
            runsP_word_append hwne hw hrest_head]
          rw [List.filter_cons]
          rw [show ((!(w == w)) = false) from by simp]
          rw [if_neg (by simp)]
          cases hrest : List.drop w.length (c :: cs) with
          | nil =>
            rw [rwAux_nil, runsP_nil]
            rfl
          | cons d r' =>
            have hd : isWordChar d = false := by
              rw [hrest] at hrest_head
              exact hrest_head d rfl
            rw [rwAux_cons_neg hwq hq hd, runsP_cons_neg _ hd,
              runsP_cons_neg _ hd]
            apply ih r'.length ?_ r' rfl
            have hlen : n = w.length + (d :: r').length := by
              rw [← hn, hseq, hrest, List.length_append]
            have hwpos : 1 ≤ w.length := by
              rw [hwq]
              simp
            simp only [List.length_cons] at hlen ⊢
            omega
        · -- no match at the head: the whole leading run is copied
          have hs : c :: cs = (c :: cs.takeWhile isWordChar) ++
              cs.dropWhile isWordChar := by
            rw [List.cons_append, List.takeWhile_append_dropWhile]
          have hrw : ∀ x ∈ c :: cs.takeWhile isWordChar, isWordChar x = true := by
            intro x hx
            rcases List.mem_cons.mp hx with h | h
            · exact h ▸ hc
            · exact takeWhile_all h
          have hth : ∀ d, (cs.dropWhile isWordChar).head? = some d →
              isWordChar d = false := by
            intro d hd
            have := List.head?_dropWhile_not isWordChar cs
            rw [hd] at this
            simpa using this
          have hrun_ne : (c :: cs.takeWhile isWordChar) ≠ w := by
            intro heq
            apply hcond
            constructor
            · rw [show (c :: cs : Str) = w ++ cs.dropWhile isWordChar from by
                rw [← heq, ← hs]]
              exact List.isPrefixOf_iff_prefix.mpr (List.prefix_append _ _)
            · rw [show (c :: cs : Str) = w ++ cs.dropWhile isWordChar from by
                rw [← heq, ← hs]]
              rw [List.drop_left]
              exact boundR_of_head hth
          have hskip : rwAux w false (c :: cs) =
              (c :: cs.takeWhile isWordChar) ++
                rwAux w true (cs.dropWhile isWordChar) := by
            conv_lhs => rw [hs]
            exact rwAux_run_skip (by simp) hrw (by rw [← hs]; exact hcond)
          rw [hskip, runsP_cons_pos _ hc, List.filter_cons]
          rw [show ((!((c :: cs.takeWhile isWordChar) == w)) = true) from by
            simp [hrun_ne]]
          rw [if_pos (by simp [hrun_ne])]
          cases ht : cs.dropWhile isWordChar with
          | nil =>
            rw [rwAux_nil,
              runsP_word_append (by simp) hrw (by intro d hd; simp at hd),
              runsP_nil]
            rfl
          | cons d t' =>
            have hd : isWordChar d = false := by
              rw [ht] at hth
              exact hth d rfl
            rw [rwAux_cons_neg hwq hq hd]
            rw [runsP_word_append (by simp) hrw
              (by intro e he
                  simp only [List.head?_cons, Option.some.injEq] at he
                  exact he ▸ hd)]
            rw [runsP_cons_neg _ hd, runsP_cons_neg _ hd]
            congr 1
            apply ih t'.length ?_ t' rfl
            have hle := (List.dropWhile_sublist isWordChar (l := cs)).length_le
            rw [ht] at hle
            have hn' : cs.length + 1 = n := by simpa using hn
            simp only [List.length_cons] at hle ⊢
            omega
      · rw [rwAux_cons_neg hwq hq (Bool.eq_false_iff.mpr hc),
          runsP_cons_neg _ (Bool.eq_false_iff.mpr hc),
          runsP_cons_neg _ (Bool.eq_false_iff.mpr hc)]
        apply ih cs.length ?_ cs rfl
        simp only [← hn, List.length_cons]
        omega

/-- A single-word pass is the identity when no maximal word run equals the
pattern. -/
theorem removeWord_id_single {w : Str} (hwne : w ≠ [])
    (hw : ∀ c ∈ w, isWordChar c = true) (s : Str)
    (habs : ∀ r ∈ runsP isWordChar s, r ≠ w) : rwAux w false s = s := by
  obtain ⟨q, qs, hwq⟩ : ∃ q qs, w = q :: qs := by
    cases w with
    | nil => exact absurd rfl hwne
    | cons q qs => exact ⟨q, qs, rfl⟩
  have hq : isWordChar q = true := hw q (hwq ▸ List.mem_cons_self q qs)
  generalize hn : s.length = n
  induction n using Nat.strong_induction_on generalizing s with
  | _ n ih =>
    cases s with
    | nil => exact rwAux_nil w false
    | cons c cs =>
      by_cases hc : isWordChar c = true
      · have hs : c :: cs = (c :: cs.takeWhile isWordChar) ++
            cs.dropWhile isWordChar := by
          rw [List.cons_append, List.takeWhile_append_dropWhile]
        have hrw : ∀ x ∈ c :: cs.takeWhile isWordChar, isWordChar x = true := by
          intro x hx
          rcases List.mem_cons.mp hx with h | h
          · exact h ▸ hc
          · exact takeWhile_all h
        have hth : ∀ d, (cs.dropWhile isWordChar).head? = some d →
            isWordChar d = false := by
          intro d hd
          have := List.head?_dropWhile_not isWordChar cs
          rw [hd] at this
          simpa using this
        have hruns : runsP isWordChar (c :: cs) =
            (c :: cs.takeWhile isWordChar) ::
              runsP isWordChar (cs.dropWhile isWordChar) :=
          runsP_cons_pos _ hc
        have hrun_ne : (c :: cs.takeWhile isWordChar) ≠ w := by
          apply habs
          rw [hruns]
          exact List.mem_cons_self _ _
        have hcond : ¬(w.isPrefixOf (c :: cs) = true ∧
            boundR (List.drop w.length (c :: cs)) = true) := by
          rintro ⟨hpref, hbr⟩
          -- a match at the head would make the leading run equal to `w`
          have hseq : c :: cs = w ++ List.drop w.length (c :: cs) := by
            have htake : w = List.take w.length (c :: cs) :=
              List.prefix_iff_eq_take.mp (List.isPrefixOf_iff_prefix.mp hpref)
            conv_lhs => rw [← List.take_append_drop w.length (c :: cs)]
            rw [← htake]
          have : runsP isWordChar (c :: cs) =
              w :: runsP isWordChar (List.drop w.length (c :: cs)) := by
            conv_lhs => rw [hseq]
            exact runsP_word_append hwne hw (head_of_boundR hbr)
          exact habs w (by rw [this]; exact List.mem_cons_self _ _) rfl
        have hskip : rwAux w false (c :: cs) =
            (c :: cs.takeWhile isWordChar) ++
              rwAux w true (cs.dropWhile isWordChar) := by
          conv_lhs => rw [hs]
          exact rwAux_run_skip (by simp) hrw (by rw [← hs]; exact hcond)
        rw [hskip]
        cases ht : cs.dropWhile isWordChar with
        | nil =>
          rw [rwAux_nil, List.append_nil]
          conv_rhs => rw [hs, ht]
          rw [List.append_nil]
        | cons d t' =>
          have hd : isWordChar d = false := by
            rw [ht] at hth
            exact hth d rfl
          rw [rwAux_cons_neg hwq hq hd]
          have hlt : t'.length < n := by
            have hle := (List.dropWhile_sublist isWordChar (l := cs)).length_le
            rw [ht] at hle
            have hn' : cs.length + 1 = n := by simpa using hn
            simp only [List.length_cons] at hle
            omega
          have hid : rwAux w false t' = t' := by
            apply ih t'.length hlt t' ?_ rfl
            intro r hr
            apply habs
            rw [hruns, ht, runsP_cons_neg _ hd]
            exact List.mem_cons_of_mem _ hr
          rw [hid]
          conv_rhs => rw [hs, ht]
      · rw [rwAux_cons_neg hwq hq (Bool.eq_false_iff.mpr hc)]
        have hlt2 : cs.length < n := by
          have hn' : cs.length + 1 = n := by simpa using hn
          omega
        have hid : rwAux w false cs = cs := by
          apply ih cs.length hlt2 cs ?_ rfl
          intro r hr
          apply habs
          rw [runsP_cons_neg _ (Bool.eq_false_iff.mpr hc)]
          exact hr
        rw [hid]

/-- A two-word pass (`pvt ltd`, `private limited`) deletes whole pairs of
adjacent runs: the runs of the output form a sublist of the runs of the
input. -/
theorem removeWord_runs_twoword {p p1 p2 : Str} (hp : p = p1 ++ ' ' :: p2)
    (h1ne : p1 ≠ []) (h2ne : p2 ≠ [])
    (h1 : ∀ c ∈ p1, isWordChar c = true) (h2 : ∀ c ∈ p2, isWordChar c = true)
    (s : Str) :
    (runsP isWordChar (rwAux p false s)).Sublist (runsP isWordChar s) := by
  obtain ⟨q, qs, hpq, hq⟩ : ∃ q qs, p = q :: qs ∧ isWordChar q = true := by
    cases hp1 : p1 with
    | nil => exact absurd hp1 h1ne
    | cons r rs =>
      exact ⟨r, rs ++ ' ' :: p2, by rw [hp, hp1, List.cons_append],
        h1 r (hp1 ▸ List.mem_cons_self r rs)⟩
  have hpne : p ≠ [] := by simp [hpq]
  have hlast : isWordChar (p.getLastD ' ') = true := by
    rw [hp, getLastD_append (v := ' ' :: p2) (by simp),
      show (' ' :: p2 : Str) = [' '] ++ p2 from rfl,
      getLastD_append (v := p2) h2ne]
    exact getLastD_word h2ne h2
  generalize hn : s.length = n
  induction n using Nat.strong_induction_on generalizing s with
  | _ n ih =>
    cases s with
    | nil =>
      rw [rwAux_nil]
    | cons c cs =>
      by_cases hc : isWordChar c = true
      · by_cases hcond : (p.isPrefixOf (c :: cs) = true ∧
            boundR (List.drop p.length (c :: cs)) = true)
        · have hseq : c :: cs = p ++ List.drop p.length (c :: cs) := by
            have htake : p = List.take p.length (c :: cs) :=
              List.prefix_iff_eq_take.mp
                (List.isPrefixOf_iff_prefix.mp hcond.1)
            conv_lhs => rw [← List.take_append_drop p.length (c :: cs)]
            rw [← htake]
          have hbr : boundR (List.drop p.length (c :: cs)) = true := hcond.2
          have hrunsGen : ∀ rest : Str, boundR rest = true →
              runsP isWordChar (p ++ rest) =
                p1 :: p2 :: runsP isWordChar rest := by
            intro rest hbrest
            rw [hp, List.append_assoc, List.cons_append]
            rw [runsP_word_append h1ne h1 (by intro d hd; simp at hd; rw [← hd]; decide)]
            rw [runsP_cons_neg _ (by decide)]
            rw [runsP_word_append h2ne h2 (head_of_boundR hbrest)]
          have hruns : runsP isWordChar (c :: cs) =
              p1 :: p2 :: runsP isWordChar (List.drop p.length (c :: cs)) := by
            conv_lhs => rw [hseq]
            exact hrunsGen _ hbr
          have hout : rwAux p false (c :: cs) =
              rwAux p true (List.drop p.length (c :: cs)) := by
            conv_lhs => rw [hseq]
            exact rwAux_match _ hpne hlast hbr
          rw [hout, hruns]
          cases hrest : List.drop p.length (c :: cs) with
          | nil =>
            rw [rwAux_nil, runsP_nil]
            exact List.nil_sublist _
          | cons d r' =>
            have hd : isWordChar d = false := by
              have := head_of_boundR hbr
              rw [hrest] at this
              exact this d rfl
            rw [rwAux_cons_neg hpq hq hd, runsP_cons_neg _ hd,
              runsP_cons_neg _ hd]
            have hlt : r'.length < n := by
              have hlen : n = p.length + (d :: r').length := by
                rw [← hn, hseq, hrest, List.length_append]
              have hppos : 1 ≤ p.length := by rw [hpq]; simp
              simp only [List.length_cons] at hlen ⊢
              omega
            exact ((ih r'.length hlt r' rfl).cons p2).cons p1
        · have hs : c :: cs = (c :: cs.takeWhile isWordChar) ++
              cs.dropWhile isWordChar := by
            rw [List.cons_append, List.takeWhile_append_dropWhile]
          have hrw : ∀ x ∈ c :: cs.takeWhile isWordChar, isWordChar x = true := by
            intro x hx
            rcases List.mem_cons.mp hx with h | h
            · exact h ▸ hc
            · exact takeWhile_all h
          have hth : ∀ d, (cs.dropWhile isWordChar).head? = some d →
              isWordChar d = false := by
            intro d hd
            have := List.head?_dropWhile_not isWordChar cs
            rw [hd] at this
            simpa using this
          have hskip : rwAux p false (c :: cs) =
              (c :: cs.takeWhile isWordChar) ++
                rwAux p true (cs.dropWhile isWordChar) := by
            conv_lhs => rw [hs]
            exact rwAux_run_skip (by simp) hrw (by rw [← hs]; exact hcond)
          rw [hskip, runsP_cons_pos _ hc]
          cases ht : cs.dropWhile isWordChar with
          | nil =>
            rw [rwAux_nil,
              runsP_word_append (by simp) hrw (by intro d hd; simp at hd),
              runsP_nil]
          | cons d t' =>
            have hd : isWordChar d = false := by
              rw [ht] at hth
              exact hth d rfl
            rw [rwAux_cons_neg hpq hq hd]
            rw [runsP_word_append (by simp) hrw
              (by intro e he
                  simp only [List.head?_cons, Option.some.injEq] at he
                  exact he ▸ hd)]
            rw [runsP_cons_neg _ hd, runsP_cons_neg _ hd]
            have hlt : t'.length < n := by
              have hle := (List.dropWhile_sublist isWordChar (l := cs)).length_le
              rw [ht] at hle
              have hn' : cs.length + 1 = n := by simpa using hn
              simp only [List.length_cons] at hle
              omega
            exact (ih t'.length hlt t' rfl).cons₂ _
      · rw [rwAux_cons_neg hpq hq (Bool.eq_false_iff.mpr hc),
          runsP_cons_neg _ (Bool.eq_false_iff.mpr hc),
          runsP_cons_neg _ (Bool.eq_false_iff.mpr hc)]
        have hlt : cs.length < n := by
          have hn' : cs.length + 1 = n := by simpa using hn
          omega
        exact ih cs.length hlt cs rfl

/-- A two-word pass is the identity when no maximal word run equals its
second word. -/
theorem removeWord_id_twoword {p p1 p2 : Str} (hp : p = p1 ++ ' ' :: p2)
    (h1ne : p1 ≠ []) (h2ne : p2 ≠ [])
    (h1 : ∀ c ∈ p1, isWordChar c = true) (h2 : ∀ c ∈ p2, isWordChar c = true)
    (s : Str) (habs : ∀ r ∈ runsP isWordChar s, r ≠ p2) :
    rwAux p false s = s := by
  obtain ⟨q, qs, hpq, hq⟩ : ∃ q qs, p = q :: qs ∧ isWordChar q = true := by
    cases hp1 : p1 with
    | nil => exact absurd hp1 h1ne
    | cons r rs =>
      exact ⟨r, rs ++ ' ' :: p2, by rw [hp, hp1, List.cons_append],
        h1 r (hp1 ▸ List.mem_cons_self r rs)⟩
  generalize hn : s.length = n
  induction n using Nat.strong_induction_on generalizing s with
  | _ n ih =>
    cases s with
    | nil => exact rwAux_nil p false
    | cons c cs =>
      by_cases hc : isWordChar c = true
      · have hs : c :: cs = (c :: cs.takeWhile isWordChar) ++
            cs.dropWhile isWordChar := by
          rw [List.cons_append, List.takeWhile_append_dropWhile]
        have hrw : ∀ x ∈ c :: cs.takeWhile isWordChar, isWordChar x = true := by
          intro x hx
          rcases List.mem_cons.mp hx with h | h
          · exact h ▸ hc
          · exact takeWhile_all h
        have hth : ∀ d, (cs.dropWhile isWordChar).head? = some d →
            isWordChar d = false := by
          intro d hd
          have := List.head?_dropWhile_not isWordChar cs
          rw [hd] at this
          simpa using this
        have hruns : runsP isWordChar (c :: cs) =
            (c :: cs.takeWhile isWordChar) ::
              runsP isWordChar (cs.dropWhile isWordChar) :=
          runsP_cons_pos _ hc
        have hcond : ¬(p.isPrefixOf (c :: cs) = true ∧
            boundR (List.drop p.length (c :: cs)) = true) := by
          rintro ⟨hpref, hbr⟩
          have hseq : c :: cs = p ++ List.drop p.length (c :: cs) := by
            have htake : p = List.take p.length (c :: cs) :=
              List.prefix_iff_eq_take.mp (List.isPrefixOf_iff_prefix.mp hpref)
            conv_lhs => rw [← List.take_append_drop p.length (c :: cs)]
            rw [← htake]
          have hrunsGen : ∀ rest : Str, boundR rest = true →
              runsP isWordChar (p ++ rest) =
                p1 :: p2 :: runsP isWordChar rest := by
            intro rest hbrest
            rw [hp, List.append_assoc, List.cons_append]
            rw [runsP_word_append h1ne h1 (by intro d hd; simp at hd; rw [← hd]; decide)]
            rw [runsP_cons_neg _ (by decide)]
            rw [runsP_word_append h2ne h2 (head_of_boundR hbrest)]
          have hruns2 : runsP isWordChar (c :: cs) =
              p1 :: p2 :: runsP isWordChar (List.drop p.length (c :: cs)) := by
            conv_lhs => rw [hseq]
            exact hrunsGen _ hbr
          exact habs p2 (by
            rw [hruns2]
            exact List.mem_cons_of_mem _ (List.mem_cons_self _ _)) rfl
        have hskip : rwAux p false (c :: cs) =
            (c :: cs.takeWhile isWordChar) ++
              rwAux p true (cs.dropWhile isWordChar) := by
          conv_lhs => rw [hs]
          exact rwAux_run_skip (by simp) hrw (by rw [← hs]; exact hcond)
        rw [hskip]
        cases ht : cs.dropWhile isWordChar with
        | nil =>
          rw [rwAux_nil, List.append_nil]
          conv_rhs => rw [hs, ht]
          rw [List.append_nil]
        | cons d t' =>
          have hd : isWordChar d = false := by
            rw [ht] at hth
            exact hth d rfl
          rw [rwAux_cons_neg hpq hq hd]
          have hlt : t'.length < n := by
            have hle := (List.dropWhile_sublist isWordChar (l := cs)).length_le
            rw [ht] at hle
            have hn' : cs.length + 1 = n := by simpa using hn
            simp only [List.length_cons] at hle
            omega
          have hid : rwAux p false t' = t' := by
            apply ih t'.length hlt t' ?_ rfl
            intro r hr
            apply habs
            rw [hruns, ht, runsP_cons_neg _ hd]
            exact List.mem_cons_of_mem _ hr
          rw [hid]
          conv_rhs => rw [hs, ht]
      · rw [rwAux_cons_neg hpq hq (Bool.eq_false_iff.mpr hc)]
        have hlt : cs.length < n := by
          have hn' : cs.length + 1 = n := by simpa using hn
          omega
        have hid : rwAux p false cs = cs := by
          apply ih cs.length hlt cs ?_ rfl
          intro r hr
          apply habs
          rw [runsP_cons_neg _ (Bool.eq_false_iff.mpr hc)]
          exact hr
        rw [hid]

theorem rwAux_sublist (p : Str) (b : Bool) (s : Str) :
    (rwAux p b s).Sublist s := by
  generalize hn : s.length = n
  induction n using Nat.strong_induction_on generalizing b s with
  | _ n ih =>
    cases s with
    | nil =>
      rw [rwAux_nil]
    | cons c cs =>
      by_cases hcond : (!b && p.isPrefixOf (c :: cs) &&
          boundR (List.drop p.length (c :: cs)) && !p.isEmpty) = true
      · rw [rwAux_cons_of_cond hcond]
        have hplen : 1 ≤ p.length := by
          simp only [Bool.and_eq_true] at hcond
          have := hcond.2
          cases p with
          | nil => simp at this
          | cons _ _ => simp
        have hlt : (List.drop p.length (c :: cs)).length < n := by
          simp only [List.length_drop, List.length_cons]
          have hn' : cs.length + 1 = n := by simpa using hn
          omega
        exact (ih _ hlt _ _ rfl).trans (List.drop_sublist _ _)
      · rw [rwAux_cons_of_not_cond (Bool.eq_false_iff.mpr hcond)]
        have hlt : cs.length < n := by
          have hn' : cs.length + 1 = n := by simpa using hn
          omega
        exact (ih _ hlt _ cs rfl).cons₂ c

theorem removeWord_runs_subset {p : Str} (hp : SuffixShape p) (s : Str) :
    ∀ r ∈ runsP isWordChar (removeWord p s), r ∈ runsP isWordChar s := by
  intro r hr
  rcases hp with ⟨hne, hw⟩ | ⟨p1, p2, hpp, h1ne, h2ne, h1, h2⟩
  · rw [show removeWord p s = rwAux p false s from rfl,
      removeWord_runs_single hne hw s] at hr
    exact (List.mem_filter.mp hr).1
  · exact (removeWord_runs_twoword hpp h1ne h2ne h1 h2 s).subset hr

theorem foldPasses_runs_subset (ps : List Str)
    (hps : ∀ p ∈ ps, SuffixShape p) (s : Str) :
    ∀ r ∈ runsP isWordChar
      (ps.foldl (fun acc suf => removeWord suf acc) s),
      r ∈ runsP isWordChar s := by
  induction ps generalizing s with
  | nil => intro r hr; exact hr
  | cons p ps' ih =>
    intro r hr
    rw [List.foldl_cons] at hr
    exact removeWord_runs_subset (hps p (List.mem_cons_self p ps')) s r
      (ih (fun x hx => hps x (List.mem_cons_of_mem p hx)) (removeWord p s) r hr)

theorem foldPasses_absent {w : Str} (hwne : w ≠ [])
    (hw : ∀ c ∈ w, isWordChar c = true) (ps : List Str)
    (hps : ∀ p ∈ ps, SuffixShape p) (hmem : w ∈ ps) (s : Str) :
    ∀ r ∈ runsP isWordChar
      (ps.foldl (fun acc suf => removeWord suf acc) s), r ≠ w := by
  induction ps generalizing s with
  | nil => simp at hmem
  | cons p ps' ih =>
    intro r hr
    rw [List.foldl_cons] at hr
    rcases List.mem_cons.mp hmem with heq | hmem'
    · subst heq
    -- the pass for `w` itself removes every run equal to `w`, and the
    -- remaining passes never create runs
      have hr' := foldPasses_runs_subset ps'
        (fun x hx => hps x (List.mem_cons_of_mem w hx)) (removeWord w s) r hr
      rw [show removeWord w s = rwAux w false s from rfl,
        removeWord_runs_single hwne hw s] at hr'
      have := (List.mem_filter.mp hr').2
      intro hcon
      rw [hcon] at this
      simp at this
    · exact ih (fun x hx => hps x (List.mem_cons_of_mem p hx)) hmem'
        (removeWord p s) r hr

theorem runsP_stripWs (s : Str) :
    runsP isWordChar (stripWs s) = runsP isWordChar s := by
  have hws_nw : ∀ c : Char, isWsChar c = true → isWordChar c = false :=
    fun c h => not_word_of_ws h
  have hdecomp1 : s = s.takeWhile isWsChar ++ s.dropWhile isWsChar :=
    (List.takeWhile_append_dropWhile isWsChar s).symm
  have h1 : runsP isWordChar s =
      runsP isWordChar (s.dropWhile isWsChar) := by
    conv_lhs => rw [hdecomp1]
    exact runsP_sep_append _ (fun c hc => hws_nw c (takeWhile_all hc))
  have hdecomp2 : s.dropWhile isWsChar =
      stripWs s ++ ((s.dropWhile isWsChar).reverse.takeWhile isWsChar).reverse := by
    unfold stripWs
    conv_lhs => rw [← List.reverse_reverse (s.dropWhile isWsChar)]
    rw [show ((s.dropWhile isWsChar).reverse : Str) =
      (s.dropWhile isWsChar).reverse.takeWhile isWsChar ++
        (s.dropWhile isWsChar).reverse.dropWhile isWsChar from
      (List.takeWhile_append_dropWhile isWsChar _).symm]
    rw [List.reverse_append]
    rw [List.takeWhile_append_dropWhile]
  have h2 : runsP isWordChar (s.dropWhile isWsChar) =
      runsP isWordChar (stripWs s) := by
    conv_lhs => rw [hdecomp2]
    apply runsP_append_sep_right
    intro c hc
    rw [List.mem_reverse] at hc
    exact hws_nw c (takeWhile_all hc)
  rw [h1, h2]

theorem stripWs_getLast {t : Str} :
    ∀ d, (stripWs t).getLast? = some d → isWsChar d = false := by
  intro d hd
  unfold stripWs at hd
  rw [List.getLast?_reverse] at hd
  have := List.head?_dropWhile_not isWsChar (t.dropWhile isWsChar).reverse
  rw [hd] at this
  simpa using this

theorem stripWs_head {t : Str} :
    ∀ d, (stripWs t).head? = some d → isWsChar d = false := by
  intro d hd
  unfold stripWs at hd
  rw [List.head?_reverse] at hd
  -- the last element of the trailing-stripped reverse is the head of the
  -- leading-stripped string
  obtain ⟨pre, hpre⟩ :=
    List.dropWhile_suffix (l := (t.dropWhile isWsChar).reverse) isWsChar
  have hne : (t.dropWhile isWsChar).reverse.dropWhile isWsChar ≠ [] := by
    intro hcon
    rw [hcon] at hd
    simp at hd
  have hlast : ((t.dropWhile isWsChar).reverse).getLast? = some d := by
    rw [← hpre, List.getLast?_append_of_ne_nil pre hne]
    exact hd
  rw [List.getLast?_reverse] at hlast
  have := List.head?_dropWhile_not isWsChar t
  rw [hlast] at this
  simpa using this

theorem stripWs_stripWs (t : Str) : stripWs (stripWs t) = stripWs t :=
  stripWs_eq_self stripWs_head stripWs_getLast

theorem foldPasses_chars (ps : List Str) (s : Str) :
    ∀ c ∈ ps.foldl (fun acc suf => removeWord suf acc) s, c ∈ s := by
  induction ps generalizing s with
  | nil => intro c hc; exact hc
  | cons p ps' ih =>
    intro c hc
    rw [List.foldl_cons] at hc
    exact (rwAux_sublist p false s).subset (ih (removeWord p s) c hc)

theorem foldPasses_id (ps : List Str) (s : Str)
    (hid : ∀ p ∈ ps, removeWord p s = s) :
    ps.foldl (fun acc suf => removeWord suf acc) s = s := by
  induction ps with
  | nil => rfl
  | cons p ps' ih =>
    rw [List.foldl_cons, hid p (List.mem_cons_self p ps')]
    exact ih (fun x hx => hid x (List.mem_cons_of_mem p hx))

theorem suffix_shapes : ∀ p ∈ suffixes, SuffixShape p := by
  intro p hp
  simp only [suffixes, List.map_cons, List.map_nil, List.mem_cons,
    List.not_mem_nil, or_false] at hp
  rcases hp with h | h | h | h | h | h | h | h | h | h | h <;> subst h
  · exact Or.inr ⟨("pvt").toList, ("ltd").toList, by decide, by decide,
      by decide, by decide, by decide⟩
  · exact Or.inr ⟨("private").toList, ("limited").toList, by decide,
      by decide, by decide, by decide, by decide⟩
  · exact Or.inl (by decide)
  · exact Or.inl (by decide)
  · exact Or.inl (by decide)
  · exact Or.inl (by decide)
  · exact Or.inl (by decide)
  · exact Or.inl (by decide)
  · exact Or.inl (by decide)
  · exact Or.inl (by decide)
  · exact Or.inl (by decide)

theorem single_suffix_facts :
    ∀ w ∈ singleWordSuffixes,
      w ≠ [] ∧ (∀ c ∈ w, isWordChar c = true) ∧ w ∈ suffixes := by decide

/-- After `_normalize_company_name` no maximal word run equals any
single-word legal-entity suffix. -/
theorem normalizeCompanyName_no_suffix_runs (s : Str) :
    ∀ w ∈ singleWordSuffixes,
      ∀ r ∈ runsP isWordChar (normalizeCompanyName s), r ≠ w := by
  intro w hwmem r hr
  obtain ⟨hwne, hw, hmem⟩ := single_suffix_facts w hwmem
  unfold normalizeCompanyName at hr
  by_cases hs : s.isEmpty
  · rw [if_pos hs, runsP_nil] at hr
    simp at hr
  · rw [if_neg hs, runsP_stripWs] at hr
    exact foldPasses_absent hwne hw suffixes suffix_shapes hmem (lowerStr s) r hr

/-- `_normalize_company_name` is idempotent. -/
theorem normalizeCompanyName_idem (s : Str) :
    normalizeCompanyName (normalizeCompanyName s) = normalizeCompanyName s := by
  by_cases hs : s.isEmpty
  · rw [show normalizeCompanyName s = [] from by
      unfold normalizeCompanyName; rw [if_pos hs]]
    rfl
  · set S := normalizeCompanyName s with hS
    by_cases hS0 : S.isEmpty
    · rw [show normalizeCompanyName S = [] from by
        unfold normalizeCompanyName; rw [if_pos hS0]]
      rw [List.isEmpty_iff] at hS0
      exact hS0.symm
    · have hSdef : S = stripWs
          (suffixes.foldl (fun acc suf => removeWord suf acc) (lowerStr s)) := by
        rw [hS]
        unfold normalizeCompanyName
        rw [if_neg hs]
      have habs : ∀ w ∈ singleWordSuffixes,
          ∀ r ∈ runsP isWordChar S, r ≠ w := by
        intro w hw r hr
        rw [hS] at hr
        exact normalizeCompanyName_no_suffix_runs s w hw r hr
      have hlow : lowerStr S = S := by
        apply map_eq_self_of_fixed
        intro c hc
        rw [hSdef] at hc
        have hc1 := mem_of_mem_stripWs hc
        have hc2 := foldPasses_chars suffixes (lowerStr s) c hc1
        obtain ⟨e, _, he⟩ := List.mem_map.mp hc2
        exact he ▸ toLower_toLower e
      have hfold : suffixes.foldl (fun acc suf => removeWord suf acc) S = S := by
        apply foldPasses_id
        intro p hp
        simp only [suffixes, List.map_cons, List.map_nil, List.mem_cons,
          List.not_mem_nil, or_false] at hp
        rcases hp with h | h | h | h | h | h | h | h | h | h | h <;> subst h
        · exact @removeWord_id_twoword _ (("pvt").toList)
            (("ltd").toList) (by decide) (by decide) (by decide)
            (by decide) (by decide) S (habs (("ltd").toList) (by decide))
        · exact @removeWord_id_twoword _ (("private").toList)
            (("limited").toList) (by decide) (by decide) (by decide)
            (by decide) (by decide) S (habs (("limited").toList) (by decide))
        · exact removeWord_id_single (by decide) (by decide) S
            (habs (("ltd").toList) (by decide))
        · exact removeWord_id_single (by decide) (by decide) S
            (habs (("inc").toList) (by decide))
        · exact removeWord_id_single (by decide) (by decide) S
            (habs (("corp").toList) (by decide))
        · exact removeWord_id_single (by decide) (by decide) S
            (habs (("corporation").toList) (by decide))
        · exact removeWord_id_single (by decide) (by decide) S
            (habs (("company").toList) (by decide))
        · exact removeWord_id_single (by decide) (by decide) S
            (habs (("co").toList) (by decide))
        · exact removeWord_id_single (by decide) (by decide) S
            (habs (("limited").toList) (by decide))
        · exact removeWord_id_single (by decide) (by decide) S
            (habs (("llc").toList) (by decide))
        · exact removeWord_id_single (by decide) (by decide) S
            (habs (("plc").toList) (by decide))
      show normalizeCompanyName S = S
      unfold normalizeCompanyName
      rw [if_neg hS0, hlow, hfold, hSdef]
      exact stripWs_stripWs _

/-! ## Claim theorems -/

/-- C5: on the empty record list the pipeline does not return a result
with `duplicate_pairs == 0` — it raises.  The empty dataframe has no
columns, and `_preprocess_data` reads `df['title_clean']` unconditionally
to build `title_words`, so `detect_duplicates([])` propagates
`KeyError: 'title_clean'` instead of producing a summary. -/
theorem detect_empty_raises (cfg : Config) (cosSim : Option (Nat → Nat → ℚ)) :
    detectDuplicates cfg cosSim [] =
      Except.error "KeyError: title_clean" := rfl

/-- C6 (counterexample): `_clean_text` alone is not idempotent.  On
`a..b` the first pass collapses whitespace before the punctuation is
replaced by spaces, leaving `a  b` with a double space; a second pass
collapses it to `a b`. -/
theorem cleanText_not_idem :
    cleanText (cleanText (("a..b").toList)) ≠ cleanText (("a..b").toList) := by
  decide

/-- C6 (amended): idempotence holds for the composed title/description
normalization — `_normalize_text` after `_clean_text`, which is how the
preprocessing pipeline applies them — and for `_normalize_company_name`;
`_clean_text` by itself is not idempotent. -/
theorem normalization_idem (s : Str) :
    normalizeText (cleanText (normalizeText (cleanText s))) =
      normalizeText (cleanText s) ∧
    normalizeCompanyName (normalizeCompanyName s) = normalizeCompanyName s :=
  ⟨titleNormalization_idem s, normalizeCompanyName_idem s⟩

/-- C8: an invalid or unrecognized policy name is not surfaced as an
error.  `remove_duplicates` has no `else` branch over the policy name, so
an unknown policy matches neither `keep_first` nor `keep_best_source`,
nothing is ever added to the removal set, and the record set is silently
returned unchanged. -/
theorem remove_duplicates_bogus_silent (cfg : Config) (jobs : List RawRecord)
    (dups : List DuplicateMatch) :
    removeDuplicates cfg jobs dups (("bogus").toList) = Except.ok jobs := by
  have hfold : ∀ (l : List DuplicateMatch),
      l.foldl (removeStep cfg jobs (("bogus").toList)) (Except.ok []) =
        Except.ok [] := by
    intro l
    induction l with
    | nil => rfl
    | cons d l ih =>
      rw [List.foldl_cons]
      have hstep : removeStep cfg jobs (("bogus").toList) (Except.ok []) d =
          Except.ok [] := by
        simp [removeStep,
          show ((("bogus").toList) == (("keep_first").toList)) = false from
            by decide,
          show ((("bogus").toList) == (("keep_best_source").toList)) = false
            from by decide]
      rw [hstep]
      exact ih
  unfold removeDuplicates
  rw [hfold]
  have hfil : jobs.filter
      (fun j => !(([] : List Str).contains (j.id.getD []))) = jobs :=
    List.filter_eq_self.mpr (fun a _ => rfl)
  exact congrArg Except.ok hfil

theorem simOf_bounds (x y : Option Str) :
    ∀ v, simOf x y = some v → 0 ≤ v ∧ v ≤ 1 := by
  intro v hv
  cases x with
  | none => exact absurd hv (by simp [simOf])
  | some a =>
    cases y with
    | none => exact absurd hv (by simp [simOf])
    | some b =>
      have : ratio a b = v := Option.some.inj hv
      rw [← this]
      exact ⟨ratio_nonneg a b, ratio_le_one a b⟩

theorem accumulate_bounds (acc : ℚ × ℚ) (w : ℚ) (s : Option ℚ)
    (hw : 0 ≤ w) (hs : ∀ v, s = some v → 0 ≤ v ∧ v ≤ 1)
    (h : 0 ≤ acc.1 ∧ acc.1 ≤ acc.2) :
    0 ≤ (accumulate acc w s).1 ∧
      (accumulate acc w s).1 ≤ (accumulate acc w s).2 := by
  cases s with
  | none => exact h
  | some v =>
    obtain ⟨hv0, hv1⟩ := hs v rfl
    have hwv : 0 ≤ w * v := mul_nonneg hw hv0
    have hwv1 : w * v ≤ w := by
      calc w * v ≤ w * 1 := mul_le_mul_of_nonneg_left hv1 hw
        _ = w := mul_one w
    simp only [accumulate]
    exact ⟨by linarith [h.1], by linarith [h.2]⟩

theorem calcCross_bounds (j1 j2 : ProcRecord) :
    0 ≤ calcCrossSourceSimilarity j1 j2 ∧
      calcCrossSourceSimilarity j1 j2 ≤ 1 := by
  simp only [calcCrossSourceSimilarity]
  have hb := accumulate_bounds _ (4/10)
    (simOf j1.company_normalized j2.company_normalized) (by norm_num)
    (simOf_bounds _ _)
    (accumulate_bounds ((0 : ℚ), (0 : ℚ)) (6/10)
      (simOf j1.title_clean j2.title_clean)
      (by norm_num) (simOf_bounds _ _) ⟨le_refl 0, le_refl 0⟩)
  split_ifs with hpos
  · exact ⟨div_nonneg hb.1 (le_of_lt hpos), (div_le_one hpos).mpr hb.2⟩
  · exact ⟨le_refl 0, by norm_num⟩

/-- C3: every non-exact match has confidence strictly below 1 and at most
its similarity score, with the per-strategy formulas: fuzzy
min(score, 0.95), semantic score × 0.8, cross-source score × 0.9.  The
semantic part assumes the external cosine similarities lie in [0, 1]. -/
theorem non_exact_confidence_caps (cfg : Config) (df : List ProcRecord)
    (cosSim : Option (Nat → Nat → ℚ))
    (hsim : ∀ f, cosSim = some f → ∀ i j, 0 ≤ f i j ∧ f i j ≤ 1) :
    (∀ m ∈ findFuzzyDuplicates cfg df,
      m.confidence = min m.similarity_score (95/100) ∧
      m.confidence < 1 ∧ m.confidence ≤ m.similarity_score) ∧
    (∀ m ∈ findSemanticDuplicates cfg cosSim df,
      m.confidence = m.similarity_score * (8/10) ∧
      m.confidence < 1 ∧ m.confidence ≤ m.similarity_score) ∧
    (∀ m ∈ findCrossSourceDuplicates cfg df,
      m.confidence = m.similarity_score * (9/10) ∧
      m.confidence < 1 ∧ m.confidence ≤ m.similarity_score) := by
  refine ⟨fun m hm => ?_, fun m hm => ?_, fun m hm => ?_⟩
  · unfold findFuzzyDuplicates at hm
    obtain ⟨p, hp, hf⟩ := List.mem_filterMap.mp hm
    simp only [Option.ite_none_right_eq_some] at hf
    obtain ⟨hth, hf⟩ := hf
    obtain rfl := Option.some.inj hf
    refine ⟨rfl, ?_, ?_⟩
    · exact lt_of_le_of_lt (min_le_right _ _) (by norm_num)
    · exact min_le_left _ _
  · unfold findSemanticDuplicates at hm
    split at hm
    · exact absurd hm (List.not_mem_nil m)
    · split at hm
      · exact absurd hm (List.not_mem_nil m)
      · cases hcs : cosSim with
        | none => rw [hcs] at hm; exact absurd hm (List.not_mem_nil m)
        | some f =>
          rw [hcs] at hm
          obtain ⟨p, hp, hf⟩ := List.mem_filterMap.mp hm
          simp only [Option.ite_none_right_eq_some] at hf
          obtain ⟨hth, hf⟩ := hf
          obtain rfl := Option.some.inj hf
          obtain ⟨h0, h1⟩ := hsim f hcs p.1.1 p.2.1
          refine ⟨rfl, ?_, ?_⟩
          · show f p.1.1 p.2.1 * (8/10) < 1
            nlinarith
          · show f p.1.1 p.2.1 * (8/10) ≤ f p.1.1 p.2.1
            nlinarith
  · unfold findCrossSourceDuplicates at hm
    split at hm
    · exact absurd hm (List.not_mem_nil m)
    · obtain ⟨sp, hsp, hm2⟩ := List.mem_flatMap.mp hm
      obtain ⟨j1, hj1, hm3⟩ := List.mem_flatMap.mp hm2
      obtain ⟨j2, hj2, hf⟩ := List.mem_filterMap.mp hm3
      simp only [Option.ite_none_right_eq_some] at hf
      obtain ⟨hth, hf⟩ := hf
      obtain rfl := Option.some.inj hf
      obtain ⟨h0, h1⟩ := calcCross_bounds j1 j2
      refine ⟨rfl, ?_, ?_⟩
      · show calcCrossSourceSimilarity j1 j2 * (9/10) < 1
        nlinarith
      · show calcCrossSourceSimilarity j1 j2 * (9/10) ≤
          calcCrossSourceSimilarity j1 j2
        nlinarith

/-- C3 witness: the caps at a concrete two-row frame with constant
cosine similarity 1. -/
theorem non_exact_confidence_caps_witness :
    (∀ m ∈ findFuzzyDuplicates defaultConfig [emptyProc1, emptyProc2],
      m.confidence = min m.similarity_score (95/100) ∧
      m.confidence < 1 ∧ m.confidence ≤ m.similarity_score) ∧
    (∀ m ∈ findSemanticDuplicates defaultConfig (some (fun i j => 1))
        [emptyProc1, emptyProc2],
      m.confidence = m.similarity_score * (8/10) ∧
      m.confidence < 1 ∧ m.confidence ≤ m.similarity_score) ∧
    (∀ m ∈ findCrossSourceDuplicates defaultConfig [emptyProc1, emptyProc2],
      m.confidence = m.similarity_score * (9/10) ∧
      m.confidence < 1 ∧ m.confidence ≤ m.similarity_score) :=
  non_exact_confidence_caps defaultConfig [emptyProc1, emptyProc2]
    (some (fun i j => 1))
    (fun f hf i j => by cases hf; exact ⟨zero_le_one, le_refl 1⟩)

theorem simOf_symm_of (x y : Option Str) (h : symAt x y) :
    simOf x y = simOf y x := by
  cases x with
  | none => cases y <;> rfl
  | some a =>
    cases y with
    | none => rfl
    | some b =>
      simp only [simOf]
      exact congrArg some (h a b rfl rfl)

/-- C7 (counterexample): neither scorer is symmetric, because
`SequenceMatcher.ratio` is not: on cleaned titles `tide` and `diet` the
ratio is 1/4 one way and 1/2 the other, and both scorers reduce to the
title ratio when only the title column is present. -/
theorem scorer_not_symmetric :
    calcFuzzySimilarity defaultConfig tideRec dietRec ≠
      calcFuzzySimilarity defaultConfig dietRec tideRec ∧
    calcCrossSourceSimilarity tideRec dietRec ≠
      calcCrossSourceSimilarity dietRec tideRec := by
  have hr1 : ratio (("tide").toList) (("diet").toList) = 1/4 := by
    unfold ratio
    norm_num [show totalMatched ['t', 'i', 'd', 'e'] ['d', 'i', 'e', 't'] = 1
        from by decide,
      show (("tide").toList).length = 4 from rfl,
      show (("diet").toList).length = 4 from rfl]
  have hr2 : ratio (("diet").toList) (("tide").toList) = 1/2 := by
    unfold ratio
    norm_num [show totalMatched ['d', 'i', 'e', 't'] ['t', 'i', 'd', 'e'] = 2
        from by decide,
      show (("tide").toList).length = 4 from rfl,
      show (("diet").toList).length = 4 from rfl]
  have hf1 : calcFuzzySimilarity defaultConfig tideRec dietRec = 1/4 := by
    simp only [calcFuzzySimilarity, tideRec, dietRec, simOf, accumulate,
      defaultConfig]
    rw [hr1]
    norm_num
  have hf2 : calcFuzzySimilarity defaultConfig dietRec tideRec = 1/2 := by
    simp only [calcFuzzySimilarity, tideRec, dietRec, simOf, accumulate,
      defaultConfig]
    rw [hr2]
    norm_num
  have hc1 : calcCrossSourceSimilarity tideRec dietRec = 1/4 := by
    simp only [calcCrossSourceSimilarity, tideRec, dietRec, simOf, accumulate]
    rw [hr1]
    norm_num
  have hc2 : calcCrossSourceSimilarity dietRec tideRec = 1/2 := by
    simp only [calcCrossSourceSimilarity, tideRec, dietRec, simOf, accumulate]
    rw [hr2]
    norm_num
  constructor
  · rw [hf1, hf2]; norm_num
  · rw [hc1, hc2]; norm_num

/-- C7 (amended): both scorers are symmetric exactly when the underlying
per-field ratio is symmetric on the compared values; since the ratio is
not symmetric in general, the unconditional claim fails. -/
theorem scorer_symmetric_of_ratio_symm (cfg : Config) (j1 j2 : ProcRecord)
    (ht : symAt j1.title_clean j2.title_clean)
    (hc : symAt j1.company_normalized j2.company_normalized)
    (hl : symAt j1.location_clean j2.location_clean)
    (hd : symAt j1.description_clean j2.description_clean) :
    calcFuzzySimilarity cfg j1 j2 = calcFuzzySimilarity cfg j2 j1 ∧
    calcCrossSourceSimilarity j1 j2 = calcCrossSourceSimilarity j2 j1 := by
  constructor
  · unfold calcFuzzySimilarity
    rw [simOf_symm_of _ _ ht, simOf_symm_of _ _ hc, simOf_symm_of _ _ hl,
      simOf_symm_of _ _ hd]
  · unfold calcCrossSourceSimilarity
    rw [simOf_symm_of _ _ ht, simOf_symm_of _ _ hc]

/-- C7 witness: two rows with the same title `ab` and no other compared
column score symmetrically. -/
theorem scorer_symmetric_witness :
    calcFuzzySimilarity defaultConfig symRec1 symRec2 =
      calcFuzzySimilarity defaultConfig symRec2 symRec1 ∧
    calcCrossSourceSimilarity symRec1 symRec2 =
      calcCrossSourceSimilarity symRec2 symRec1 :=
  scorer_symmetric_of_ratio_symm defaultConfig symRec1 symRec2
    (fun a b ha hb => by
      rw [show a = ("ab").toList from (Option.some.inj ha).symm,
        show b = ("ab").toList from (Option.some.inj hb).symm])
    (fun a b ha hb => Option.noConfusion ha)
    (fun a b ha hb => Option.noConfusion ha)
    (fun a b ha hb => Option.noConfusion ha)

theorem accFold_num (terms : List (ℚ × Option ℚ)) :
    ∀ acc : ℚ × ℚ,
      terms.foldl (fun a t => accumulate a t.1 t.2) acc =
        (acc.1 + ((terms.filterMap (fun t => t.2.map (fun v => (t.1, v)))).map
          (fun t => t.1 * t.2)).sum,
         acc.2 + ((terms.filterMap (fun t => t.2.map (fun v => (t.1, v)))).map
          (fun t => t.1)).sum) := by
  induction terms with
  | nil => intro acc; simp
  | cons t ts ih =>
    intro acc
    obtain ⟨w, s⟩ := t
    rw [List.foldl_cons]
    cases s with
    | none =>
      rw [show accumulate acc w none = acc from rfl, ih acc]
      simp [List.filterMap_cons]
    | some v =>
      rw [ih (accumulate acc w (some v))]
      simp only [accumulate, List.filterMap_cons, Option.map_some',
        List.map_cons, List.sum_cons, Prod.mk.injEq]
      refine ⟨by ring, by ring⟩

theorem renorm_fold (T : List (ℚ × Option ℚ)) :
    (if 0 < (T.foldl (fun a t => accumulate a t.1 t.2) ((0 : ℚ), (0 : ℚ))).2
     then (T.foldl (fun a t => accumulate a t.1 t.2) ((0 : ℚ), (0 : ℚ))).1 /
          (T.foldl (fun a t => accumulate a t.1 t.2) ((0 : ℚ), (0 : ℚ))).2
     else 0) = renormScore T := by
  rw [accFold_num T ((0 : ℚ), (0 : ℚ))]
  unfold renormScore
  simp only [zero_add]

/-- C4 (counterexample): the configured salary weight 0.05 is never read
by `_calculate_fuzzy_similarity`.  On two rows identical in the four
compared fields but with different salary strings, the code scores 1
while the claim's five-field formula scores 0.95. -/
theorem fuzzy_weights_not_spec :
    calcFuzzySimilarity defaultConfig salRec1 salRec2 ≠
      specFuzzySimilarity defaultConfig salRec1 salRec2 := by
  have hra : ratio ['a'] ['a'] = 1 := by
    unfold ratio
    norm_num [show totalMatched ['a'] ['a'] = 1 from by decide,
      show (['a'] : Str).length = 1 from rfl]
  have hrs : ratio ['1'] ['2'] = 0 := by
    unfold ratio
    norm_num [show totalMatched ['1'] ['2'] = 0 from by decide,
      show (['1'] : Str).length = 1 from rfl,
      show (['2'] : Str).length = 1 from rfl]
  have hcode : calcFuzzySimilarity defaultConfig salRec1 salRec2 = 1 := by
    simp only [calcFuzzySimilarity, salRec1, salRec2, simOf, accumulate,
      defaultConfig]
    rw [hra]
    norm_num
  have hspec : specFuzzySimilarity defaultConfig salRec1 salRec2 = 95/100 := by
    simp only [specFuzzySimilarity, salRec1, salRec2, simOf, accumulate,
      defaultConfig]
    rw [hra, hrs]
    norm_num
  rw [hcode, hspec]
  norm_num

/-- C4 (amended): the score is the renormalized weighted combination of
the title, company, location and description similarities only, over the
fields present on both rows; the configured salary weight is unused. -/
theorem fuzzy_weights_renormalized (cfg : Config) (j1 j2 : ProcRecord) :
    calcFuzzySimilarity cfg j1 j2 = renormScore
      [(cfg.weightTitle, simOf j1.title_clean j2.title_clean),
       (cfg.weightCompany, simOf j1.company_normalized j2.company_normalized),
       (cfg.weightLocation, simOf j1.location_clean j2.location_clean),
       (cfg.weightDescription,
         simOf j1.description_clean j2.description_clean)] :=
  renorm_fold
    [(cfg.weightTitle, simOf j1.title_clean j2.title_clean),
     (cfg.weightCompany, simOf j1.company_normalized j2.company_normalized),
     (cfg.weightLocation, simOf j1.location_clean j2.location_clean),
     (cfg.weightDescription, simOf j1.description_clean j2.description_clean)]

theorem optToList_head (o : Option DuplicateMatch) :
    (optToList o).head? = o := by
  cases o <;> rfl

theorem replacePair_map_pairKey (d : DuplicateMatch)
    (acc : List DuplicateMatch) :
    (replacePair d acc).map pairKey = acc.map pairKey := by
  induction acc with
  | nil => rfl
  | cons x xs ih =>
    unfold replacePair
    split_ifs with h1 h2
    · simp only [List.map_cons, h1.symm]
    · rfl
    · simp only [List.map_cons, ih]

theorem consolidateStep_keys_nodup {acc : List DuplicateMatch}
    (d : DuplicateMatch) (h : (acc.map pairKey).Nodup) :
    ((consolidateStep acc d).map pairKey).Nodup := by
  unfold consolidateStep
  split_ifs with hany
  · rw [replacePair_map_pairKey]
    exact h
  · rw [List.map_append]
    apply List.nodup_append.mpr
    refine ⟨h, List.nodup_singleton _, ?_⟩
    intro a ha hb
    rw [List.map_singleton, List.mem_singleton] at hb
    subst hb
    obtain ⟨x, hx, hxk⟩ := List.mem_map.mp ha
    exact hany (List.any_eq_true.mpr ⟨x, hx, by
      rw [decide_eq_true_eq]
      exact hxk⟩)

theorem filter_key_len_le_one {acc : List DuplicateMatch}
    (h : (acc.map pairKey).Nodup) (k : Str × Str) :
    (acc.filter (fun x => decide (pairKey x = k))).length ≤ 1 := by
  induction acc with
  | nil => simp
  | cons x xs ih =>
    rw [List.map_cons, List.nodup_cons] at h
    rw [List.filter_cons]
    split_ifs with hx
    · rw [decide_eq_true_eq] at hx
      have hnil : xs.filter (fun y => decide (pairKey y = k)) = [] := by
        apply List.filter_eq_nil_iff.mpr
        intro y hy
        rw [decide_eq_true_eq]
        intro hyk
        exact h.1 (List.mem_map.mpr ⟨y, hy, by rw [hyk, ← hx]⟩)
      rw [hnil]
      simp
    · exact ih h.2

theorem list_eq_optToList_head {l : List DuplicateMatch}
    (h : l.length ≤ 1) : l = optToList l.head? := by
  cases l with
  | nil => rfl
  | cons x xs =>
    cases xs with
    | nil => rfl
    | cons y ys =>
      exfalso
      simp only [List.length_cons] at h
      omega

theorem replacePair_filter_ne (d : DuplicateMatch) (k : Str × Str)
    (hk : k ≠ pairKey d) (acc : List DuplicateMatch) :
    (replacePair d acc).filter (fun x => decide (pairKey x = k)) =
      acc.filter (fun x => decide (pairKey x = k)) := by
  induction acc with
  | nil => rfl
  | cons x xs ih =>
    by_cases h1 : pairKey x = pairKey d
    · rw [show replacePair d (x :: xs) =
          (if x.confidence < d.confidence then d else x) :: xs from by
        simp only [replacePair]
        rw [if_pos h1]]
      have hxk : ¬(pairKey x = k) := fun hh => hk (hh.symm.trans h1)
      have hdk : ¬(pairKey (if x.confidence < d.confidence then d else x)
          = k) := by
        by_cases hc : x.confidence < d.confidence
        · rw [if_pos hc]
          exact fun hh => hk hh.symm
        · rw [if_neg hc]
          exact hxk
      rw [List.filter_cons, List.filter_cons,
        if_neg (by simpa using hdk), if_neg (by simpa using hxk)]
    · rw [show replacePair d (x :: xs) = x :: replacePair d xs from by
        simp only [replacePair]
        rw [if_neg h1]]
      rw [List.filter_cons, List.filter_cons, ih]

theorem replacePair_filter_eq (d : DuplicateMatch)
    (acc : List DuplicateMatch) (hnd : (acc.map pairKey).Nodup)
    (hany : (acc.any (fun x => decide (pairKey x = pairKey d))) = true) :
    (replacePair d acc).filter (fun x => decide (pairKey x = pairKey d)) =
      optToList (updOpt ((acc.filter
        (fun x => decide (pairKey x = pairKey d))).head?) d) := by
  induction acc with
  | nil => simp at hany
  | cons x xs ih =>
    rw [List.map_cons, List.nodup_cons] at hnd
    by_cases h1 : pairKey x = pairKey d
    · have hxs : xs.filter (fun y => decide (pairKey y = pairKey d)) = [] := by
        apply List.filter_eq_nil_iff.mpr
        intro y hy
        rw [decide_eq_true_eq]
        intro hyk
        exact hnd.1 (List.mem_map.mpr ⟨y, hy, by rw [hyk, ← h1]⟩)
      by_cases hc : x.confidence < d.confidence
      · rw [show replacePair d (x :: xs) = d :: xs from by
          simp only [replacePair]
          rw [if_pos h1, if_pos hc]]
        rw [List.filter_cons, List.filter_cons, if_pos (by simp),
          if_pos (by simpa using h1), hxs, List.head?_cons]
        simp [updOpt, optToList, hc]
      · rw [show replacePair d (x :: xs) = x :: xs from by
          simp only [replacePair]
          rw [if_pos h1, if_neg hc]]
        rw [List.filter_cons, if_pos (by simpa using h1), hxs,
          List.head?_cons]
        simp [updOpt, optToList, hc]
    · rw [show replacePair d (x :: xs) = x :: replacePair d xs from by
        simp only [replacePair]
        rw [if_neg h1]]
      rw [List.filter_cons, List.filter_cons, if_neg (by simpa using h1),
        if_neg (by simpa using h1)]
      exact ih hnd.2 (by
        simp only [List.any_cons, Bool.or_eq_true, decide_eq_true_eq] at hany
        exact hany.resolve_left h1)

theorem consolidateStep_filter {acc : List DuplicateMatch}
    (d : DuplicateMatch) (k : Str × Str) (h : (acc.map pairKey).Nodup) :
    (consolidateStep acc d).filter (fun x => decide (pairKey x = k)) =
      if pairKey d = k
      then optToList (updOpt ((acc.filter
        (fun x => decide (pairKey x = k))).head?) d)
      else acc.filter (fun x => decide (pairKey x = k)) := by
  unfold consolidateStep
  split_ifs with hany hk hk
  · subst hk
    exact replacePair_filter_eq d acc h hany
  · exact replacePair_filter_ne d k (fun hh => hk hh.symm) acc
  · subst hk
    have hacc : acc.filter (fun x => decide (pairKey x = pairKey d)) = [] := by
      apply List.filter_eq_nil_iff.mpr
      intro y hy
      rw [decide_eq_true_eq]
      intro hyk
      exact hany (List.any_eq_true.mpr ⟨y, hy, by
        rw [decide_eq_true_eq]
        exact hyk⟩)
    rw [List.filter_append, hacc, List.filter_cons, if_pos (by simp)]
    rfl
  · rw [List.filter_append, List.filter_cons, if_neg (by simpa using hk)]
    simp

theorem consolidate_fold_filter (L : List DuplicateMatch) :
    ∀ acc : List DuplicateMatch, (acc.map pairKey).Nodup →
      ((L.foldl consolidateStep acc).map pairKey).Nodup ∧
      ∀ k, (L.foldl consolidateStep acc).filter
          (fun x => decide (pairKey x = k)) =
        optToList (selFoldK k ((acc.filter
          (fun x => decide (pairKey x = k))).head?) L) := by
  induction L with
  | nil =>
    intro acc h
    refine ⟨h, fun k => ?_⟩
    exact list_eq_optToList_head (filter_key_len_le_one h k)
  | cons d L ih =>
    intro acc h
    rw [List.foldl_cons]
    obtain ⟨h1, h2⟩ := ih (consolidateStep acc d)
      (consolidateStep_keys_nodup d h)
    refine ⟨h1, fun k => ?_⟩
    rw [h2 k]
    have hsel : ∀ o, selFoldK k o (d :: L) =
        selFoldK k (if pairKey d = k then updOpt o d else o) L := fun o => rfl
    rw [hsel]
    have hh : ((consolidateStep acc d).filter
        (fun x => decide (pairKey x = k))).head? =
        (if pairKey d = k
         then updOpt ((acc.filter (fun x => decide (pairKey x = k))).head?) d
         else (acc.filter (fun x => decide (pairKey x = k))).head?) := by
      rw [consolidateStep_filter d k h]
      split_ifs with hk
      · exact optToList_head _
      · rfl
    rw [hh]

theorem insertByConf_perm (x : DuplicateMatch) (l : List DuplicateMatch) :
    (insertByConf x l).Perm (x :: l) := by
  induction l with
  | nil => exact List.Perm.refl _
  | cons y ys ih =>
    unfold insertByConf
    split_ifs with hc
    · exact List.Perm.refl _
    · exact (ih.cons y).trans (List.Perm.swap x y ys)

theorem sortByConfDesc_perm (l : List DuplicateMatch) :
    (sortByConfDesc l).Perm l := by
  induction l with
  | nil => exact List.Perm.refl _
  | cons x xs ih =>
    show (insertByConf x (sortByConfDesc xs)).Perm (x :: xs)
    exact (insertByConf_perm x _).trans (ih.cons x)

theorem updOpt_isSome (o : Option DuplicateMatch) (d : DuplicateMatch) :
    (updOpt o d).isSome = true := by
  cases o with
  | none => rfl
  | some y =>
    show (if y.confidence < d.confidence then some d else some y).isSome = true
    split_ifs <;> rfl

theorem foldl_updOpt_isSome (l : List DuplicateMatch) :
    ∀ o : Option DuplicateMatch, o.isSome = true →
      (l.foldl updOpt o).isSome = true := by
  induction l with
  | nil => intro o h; exact h
  | cons d ds ih =>
    intro o h
    rw [List.foldl_cons]
    exact ih _ (updOpt_isSome o d)

theorem firstMaxSel_isSome {l : List DuplicateMatch} (h : l ≠ []) :
    (firstMaxSel l).isSome = true := by
  cases l with
  | nil => exact absurd rfl h
  | cons d ds =>
    show ((d :: ds).foldl updOpt none).isSome = true
    rw [List.foldl_cons]
    exact foldl_updOpt_isSome ds (updOpt none d) (updOpt_isSome none d)

theorem selFoldK_filter (k : Str × Str) (L : List DuplicateMatch) :
    ∀ o : Option DuplicateMatch,
      selFoldK k o L =
        (L.filter (fun x => decide (pairKey x = k))).foldl updOpt o := by
  induction L with
  | nil => intro o; rfl
  | cons d L ih =>
    intro o
    rw [List.filter_cons]
    split_ifs with hd
    · rw [List.foldl_cons]
      show selFoldK k (if pairKey d = k then updOpt o d else o) L = _
      rw [if_pos (of_decide_eq_true hd)]
      exact ih _
    · show selFoldK k (if pairKey d = k then updOpt o d else o) L = _
      rw [if_neg (fun hh => hd (decide_eq_true hh))]
      exact ih o

/-- C1: consolidation keeps at most one entry per unordered id pair; each
surviving entry is the first-seen highest-confidence report for its pair
under the iteration order exact, fuzzy, semantic, cross_source; and every
reported pair keeps exactly one representative. -/
theorem consolidation_per_pair (ex fz sm cx : List DuplicateMatch) :
    (∀ k, (consolidateDuplicates ex fz sm cx).countP
        (fun m => decide (pairKey m = k)) ≤ 1) ∧
    (∀ m ∈ consolidateDuplicates ex fz sm cx,
      firstMaxSel ((ex ++ fz ++ sm ++ cx).filter
        (fun x => decide (pairKey x = pairKey m))) = some m) ∧
    (∀ x ∈ ex ++ fz ++ sm ++ cx,
      ∃ m ∈ consolidateDuplicates ex fz sm cx, pairKey m = pairKey x) := by
  obtain ⟨hnd, hfil⟩ :=
    consolidate_fold_filter (ex ++ fz ++ sm ++ cx) [] (by simp)
  simp only [List.filter_nil, List.head?_nil] at hfil
  have hperm : (consolidateDuplicates ex fz sm cx).Perm
      ((ex ++ fz ++ sm ++ cx).foldl consolidateStep []) :=
    sortByConfDesc_perm _
  refine ⟨fun k => ?_, fun m hm => ?_, fun x hx => ?_⟩
  · rw [hperm.countP_eq, List.countP_eq_length_filter, hfil k]
    cases selFoldK k none (ex ++ fz ++ sm ++ cx) <;> simp [optToList]
  · have hm' : m ∈ (ex ++ fz ++ sm ++ cx).foldl consolidateStep [] :=
      hperm.mem_iff.mp hm
    have hmem : m ∈ ((ex ++ fz ++ sm ++ cx).foldl consolidateStep []).filter
        (fun x => decide (pairKey x = pairKey m)) :=
      List.mem_filter.mpr ⟨hm', by simp⟩
    rw [hfil (pairKey m)] at hmem
    rw [show firstMaxSel ((ex ++ fz ++ sm ++ cx).filter
        (fun x => decide (pairKey x = pairKey m))) =
        selFoldK (pairKey m) none (ex ++ fz ++ sm ++ cx) from
      (selFoldK_filter (pairKey m) _ none).symm]
    cases hsel : selFoldK (pairKey m) none (ex ++ fz ++ sm ++ cx) with
    | none =>
      rw [hsel] at hmem
      exact absurd hmem (List.not_mem_nil m)
    | some y =>
      rw [hsel] at hmem
      rw [show (optToList (some y)) = [y] from rfl, List.mem_singleton] at hmem
      rw [hmem]
  · have hxf : x ∈ (ex ++ fz ++ sm ++ cx).filter
        (fun y => decide (pairKey y = pairKey x)) :=
      List.mem_filter.mpr ⟨hx, by simp⟩
    have hsome : (selFoldK (pairKey x) none
        (ex ++ fz ++ sm ++ cx)).isSome = true := by
      rw [selFoldK_filter]
      exact firstMaxSel_isSome (List.ne_nil_of_mem hxf)
    obtain ⟨y, hy⟩ := Option.isSome_iff_exists.mp hsome
    have hyf : y ∈ ((ex ++ fz ++ sm ++ cx).foldl consolidateStep []).filter
        (fun z => decide (pairKey z = pairKey x)) := by
      rw [hfil (pairKey x), hy]
      exact List.mem_singleton.mpr rfl
    refine ⟨y, hperm.mem_iff.mpr (List.mem_filter.mp hyf).1,
      of_decide_eq_true (List.mem_filter.mp hyf).2⟩

/-- C10: company-name normalization deletes every whole-word occurrence
of each single-word legal-entity suffix anywhere in the name, not only a
trailing one: no maximal word run of the normalized name equals such a
suffix token. -/
theorem suffixes_removed_everywhere (s w : Str)
    (hw : w ∈ singleWordSuffixes) :
    ∀ r ∈ runsP isWordChar (normalizeCompanyName s), r ≠ w :=
  normalizeCompanyName_no_suffix_runs s w hw

/-- C2: every match the exact strategy emits carries `match_type` exact,
confidence 1 and similarity 1, whatever the input record set. -/
theorem exact_match_conf_one (df : List ProcRecord) (m : DuplicateMatch)
    (hm : m ∈ findExactDuplicates df) :
    m.match_type = ("exact").toList ∧ m.confidence = 1 ∧
      m.similarity_score = 1 := by
  simp only [findExactDuplicates, List.mem_flatMap] at hm
  obtain ⟨fp, hfp, hmem⟩ := hm
  split at hmem
  · simp only [List.mem_map] at hmem
    obtain ⟨p, hp, rfl⟩ := hmem
    exact ⟨rfl, rfl, rfl⟩
  · exact absurd hmem (List.not_mem_nil m)

/-- C2 witness: two rows sharing fingerprint `f` yield the exact match
with confidence 1 and similarity 1. -/
theorem exact_match_conf_one_witness :
    exMatch.match_type = ("exact").toList ∧ exMatch.confidence = 1 ∧
      exMatch.similarity_score = 1 :=
  exact_match_conf_one [exProcA, exProcB] exMatch (by decide)

/-- C9: when the four compared fields of two rows are all empty strings,
each per-field ratio is 1, the weighted fuzzy score is 1, and the fuzzy
strategy emits the pair with similarity 1 and confidence 0.95 at the
default threshold 0.8. -/
theorem empty_fields_fuzzy_pair (p1 p2 : ProcRecord)
    (h1t : p1.title_clean = some []) (h1c : p1.company_normalized = some [])
    (h1l : p1.location_clean = some []) (h1d : p1.description_clean = some [])
    (h2t : p2.title_clean = some []) (h2c : p2.company_normalized = some [])
    (h2l : p2.location_clean = some []) (h2d : p2.description_clean = some []) :
    calcFuzzySimilarity defaultConfig p1 p2 = 1 ∧
    ∃ m ∈ findFuzzyDuplicates defaultConfig [p1, p2],
      m.job1_id = p1.id ∧ m.job2_id = p2.id ∧
      m.similarity_score = 1 ∧ m.confidence = 95/100 := by
  have hsim : calcFuzzySimilarity defaultConfig p1 p2 = 1 := by
    unfold calcFuzzySimilarity
    rw [h1t, h2t, h1c, h2c, h1l, h2l, h1d, h2d]
    simp only [simOf, accumulate, defaultConfig]
    rw [show ratio ([] : Str) [] = 1 from rfl]
    norm_num
  have hthr : defaultConfig.fuzzyThreshold ≤
      calcFuzzySimilarity defaultConfig p1 p2 := by
    rw [hsim]
    norm_num [defaultConfig]
  refine ⟨hsim,
    ⟨{ job1_id := p1.id
       job2_id := p2.id
       similarity_score := calcFuzzySimilarity defaultConfig p1 p2
       match_type := ("fuzzy").toList
       reasons := getSimilarityReasons p1 p2
       confidence := min (calcFuzzySimilarity defaultConfig p1 p2) (95/100) },
     ?_, rfl, rfl, hsim, ?_⟩⟩
  · unfold findFuzzyDuplicates
    apply List.mem_filterMap.mpr
    refine ⟨(p1, p2), by simp [allPairs], ?_⟩
    show (if defaultConfig.fuzzyThreshold ≤
        calcFuzzySimilarity defaultConfig p1 p2 then some _ else none) = some _
    rw [if_pos hthr]
  · show min (calcFuzzySimilarity defaultConfig p1 p2) (95/100) = 95/100
    rw [hsim]
    norm_num

/-- C9 witness: the two concrete all-empty rows score 1 and are emitted
as a fuzzy pair with confidence 0.95. -/
theorem empty_fields_fuzzy_pair_witness :
    calcFuzzySimilarity defaultConfig emptyProc1 emptyProc2 = 1 ∧
    ∃ m ∈ findFuzzyDuplicates defaultConfig [emptyProc1, emptyProc2],
      m.job1_id = emptyProc1.id ∧ m.job2_id = emptyProc2.id ∧
      m.similarity_score = 1 ∧ m.confidence = 95/100 :=
  empty_fields_fuzzy_pair emptyProc1 emptyProc2 rfl rfl rfl rfl rfl rfl rfl rfl

/-- C10 witness: `corp` is a listed suffix and survives nowhere in the
normalization of `tech corp solutions`, where it occurs mid-name. -/
theorem suffixes_removed_everywhere_witness :
    (("corp").toList ∈ singleWordSuffixes) ∧
    ("corp").toList ∉ runsP isWordChar
      (normalizeCompanyName (("tech corp solutions").toList)) :=
  ⟨by decide, fun hmem => suffixes_removed_everywhere
    (("tech corp solutions").toList) (("corp").toList) (by decide)
    (("corp").toList) hmem rfl⟩

end DupDetect
